import Mathlib

/-!
# Prompt Inspector: the readable-format codec and the two hook handlers

A shallow embedding of `src/index.js`.

* A JavaScript string is a `List Char`.  Every character the program looks at
  (white space, line terminators, `-`, `:`, word characters) is a single UTF-16
  code unit, so working with code points instead of code units does not change
  what the regular expressions, `trim`, `split` and `substring` do.
* The two regular expression literals of the source are kept as data
  (`sepRe`, `roleRe`) and run by a small backtracking matcher that follows the
  ECMAScript matching rules for the constructs they use.
* `String.prototype.split` follows the loop of `RegExp.prototype[@@split]`.
* A thrown `Error` is `Except.error` carrying its message.
* The editor dialog is a parameter of the handlers: what the user does with
  the text that is shown.
* The array held by `data.chat` is an object with an identity (`chatRef`) and
  contents; `splice` writes the contents and keeps the identity.
* A call has a bounded number of arguments; the bound and the message of the
  `RangeError` thrown beyond it belong to the engine (`Engine`), and the
  spread call of line 92 is subject to it.
-/

namespace PromptInspector

/-- A JavaScript string. -/
abbrev Str := List Char

/-! ## Character classes of ECMAScript -/

/-- The `LineTerminator` code points: LF, CR, LS, PS. -/
def isLineTerminator (c : Char) : Bool :=
  c.toNat == 0x0A || c.toNat == 0x0D || c.toNat == 0x2028 || c.toNat == 0x2029

/-- The class `\s`, which is also what `trim` strips: `WhiteSpace` and
`LineTerminator`. -/
def isWhiteSpace (c : Char) : Bool :=
  isLineTerminator c || c.toNat == 0x09 || c.toNat == 0x0B || c.toNat == 0x0C ||
  c.toNat == 0x20 || c.toNat == 0xA0 || c.toNat == 0x1680 ||
  (decide (0x2000 ≤ c.toNat) && decide (c.toNat ≤ 0x200A)) ||
  c.toNat == 0x202F || c.toNat == 0x205F || c.toNat == 0x3000 || c.toNat == 0xFEFF

/-- The class `\w`: `[A-Za-z0-9_]`. -/
def isWordChar (c : Char) : Bool :=
  (decide (0x41 ≤ c.toNat) && decide (c.toNat ≤ 0x5A)) ||
  (decide (0x61 ≤ c.toNat) && decide (c.toNat ≤ 0x7A)) ||
  (decide (0x30 ≤ c.toNat) && decide (c.toNat ≤ 0x39)) ||
  c.toNat == 0x5F

/-- The class of the single character `-`. -/
def isDash (c : Char) : Bool := c.toNat == 0x2D

/-! ## String built-ins -/

/-- `String.prototype.trim`. -/
def trim (s : Str) : Str := (s.dropWhile isWhiteSpace).rdropWhile isWhiteSpace

/-- `Array.prototype.join` on an array of strings. -/
def join (xs : List Str) (sep : Str) : Str := List.intercalate sep xs

/-- `Array.prototype.splice(start, deleteCount, ...items)`: the array after the
call. -/
def splice {α : Type} (xs : List α) (start deleteCount : Nat) (items : List α) : List α :=
  xs.take start ++ items ++ xs.drop (start + deleteCount)

/-! ## Regular expressions -/

/-- The regular expression constructs the source uses. -/
inductive Node where
  /-- The assertion `^`; the flag is the `m` flag of the expression. -/
  | lineStart (multiline : Bool)
  /-- The assertion `$`; the flag is the `m` flag of the expression. -/
  | lineEnd (multiline : Bool)
  /-- One literal character. -/
  | lit (c : Char)
  /-- A character class under a greedy quantifier `{min,}` (`*` is `{0,}`,
  `+` is `{1,}`). -/
  | rep (cls : Char → Bool) (min : Nat)

/-- The assertion `^` at a position whose preceding character is `prev`
(`none` at index 0). -/
def atStart (multiline : Bool) (prev : Option Char) : Bool :=
  match prev with
  | none => true
  | some c => multiline && isLineTerminator c

/-- The assertion `$` at a position where `rest` is what remains of the
input. -/
def atEnd (multiline : Bool) (rest : Str) : Bool :=
  match rest with
  | [] => true
  | c :: _ => multiline && isLineTerminator c

/-- The character before the position reached after consuming `chunk`. -/
def lastOr (prev : Option Char) (chunk : Str) : Option Char :=
  match chunk.getLast? with
  | some c => some c
  | none => prev

/-- The `RepeatMatcher` of ECMAScript for a greedy `{min,}` over a character
class: take one more character and go on; when that fails and `min` is
reached, call the continuation `k` here.  Returns the text consumed by the
quantifier and the result of the continuation. -/
def repMatch (cls : Char → Bool) (k : Option Char → Str → Option (List Str)) :
    Nat → Option Char → Str → Option (Str × List Str)
  | min, prev, [] => if min = 0 then (k prev []).map (fun r => ([], r)) else none
  | min, prev, c :: s =>
    if cls c then
      match repMatch cls k (min - 1) (some c) s with
      | some (chunk, r) => some (c :: chunk, r)
      | none => if min = 0 then (k prev (c :: s)).map (fun r => ([], r)) else none
    else if min = 0 then (k prev (c :: s)).map (fun r => ([], r)) else none

/-- Match a sequence of nodes at the current position (a sticky match).  The
result lists, node by node, the text each node consumed. -/
def matchNodes : List Node → Option Char → Str → Option (List Str)
  | [], _, _ => some []
  | .lineStart m :: ns, prev, s =>
    if atStart m prev then (matchNodes ns prev s).map ([] :: ·) else none
  | .lineEnd m :: ns, prev, s =>
    if atEnd m s then (matchNodes ns prev s).map ([] :: ·) else none
  | .lit _ :: _, _, [] => none
  | .lit c :: ns, _, d :: s =>
    if d = c then (matchNodes ns (some d) s).map ([d] :: ·) else none
  | .rep cls min :: ns, prev, s =>
    (repMatch cls (matchNodes ns) min prev s).map (fun x => x.1 :: x.2)

/-- `RegExpBuiltinExec` of a non-global, non-sticky expression from
`lastIndex = 0`: try every start index in turn. -/
def regExpExec (nodes : List Node) : Option Char → Str → Option (List Str)
  | prev, [] => matchNodes nodes prev []
  | prev, c :: s =>
    match matchNodes nodes prev (c :: s) with
    | some r => some r
    | none => regExpExec nodes (some c) s

/-- `String.prototype.match` with a non-global expression. -/
def strMatch (s : Str) (nodes : List Node) : Option (List Str) :=
  regExpExec nodes none s

/-- The loop of `RegExp.prototype[@@split]` (no limit, no capture group).
`cur` holds, reversed, the characters from index `p` to index `q`; `rest` is
the input from index `q`; `prev` is the character before index `q`. -/
def splitLoop (nodes : List Node) : Nat → Option Char → Str → Str → List Str
  | 0, _, cur, rest => [cur.reverse ++ rest]
  | _ + 1, _, cur, [] => [cur.reverse]
  | fuel + 1, prev, cur, c :: rest =>
    match matchNodes nodes prev (c :: rest) with
    | none => splitLoop nodes fuel (some c) (c :: cur) rest
    | some chunks =>
      let n := chunks.flatten.length
      if n = 0 ∧ cur = [] then
        splitLoop nodes fuel (some c) (c :: cur) rest
      else
        cur.reverse :: splitLoop nodes fuel (lastOr prev ((c :: rest).take n)) []
          ((c :: rest).drop n)

/-- `String.prototype.split` with a regular expression separator. -/
def split (s : Str) (nodes : List Node) : List Str :=
  match s with
  | [] => if (matchNodes nodes none []).isSome then [] else [[]]
  | _ => splitLoop nodes (2 * s.length + 1) none [] s

/-! ## The codec (`src/index.js`, lines 128-169) -/

/-- A chat message. -/
structure Message where
  role : Str
  content : Str
deriving DecidableEq, Repr

/-- The value of `data.chat`: an array of messages, or anything else, of
which only the text `JSON.stringify(chat, null, 4)` matters. -/
inductive ChatValue where
  | array (messages : List Message)
  | notArray (json : Str)
deriving DecidableEq, Repr

/-- The expression `/^-{5,}\s*$/m`. -/
def sepRe : List Node :=
  [.lineStart true, .rep isDash 5, .rep isWhiteSpace 0, .lineEnd true]

/-- The expression `/^(\w+):\s*\n/`; the capture group is node 1. -/
def roleRe : List Node :=
  [.lineStart false, .rep isWordChar 1, .lit ':', .rep isWhiteSpace 0, .lit '\n']

/-- The template literal of one message block. -/
def renderItem (item : Message) : Str :=
  item.role ++ ":\n".toList ++ item.content ++ "\n--------------------".toList

/-- `toReadableFormat` (line 133). -/
def toReadableFormat : ChatValue → Str
  | .notArray json => json
  | .array chatArray => join (chatArray.map renderItem) "\n".toList

/-- The message of the error thrown at line 164. -/
def formatError : String :=
  "Invalid format in prompt. Each block must start with \"role:\"."

/-- The `for` loop of `fromReadableFormat` (lines 152-166). -/
def decodeLoop : List Str → List Message → Except String (List Message)
  | [], chatArray => .ok chatArray
  | block :: blocks, chatArray =>
    if trim block = [] then decodeLoop blocks chatArray
    else
      match strMatch (trim block) roleRe with
      | some m =>
        if m.getD 1 [] ≠ [] then
          let role := m.getD 1 []
          let content := trim ((trim block).drop m.flatten.length)
          decodeLoop blocks (chatArray ++ [⟨role, content⟩])
        else .error formatError
      | none => .error formatError

/-- `fromReadableFormat` (line 147). -/
def fromReadableFormat (readableString : Str) : Except String (List Message) :=
  decodeLoop (split (trim readableString) sepRe) []

/-! ## The hook handlers (`src/index.js`, lines 13-15, 54, 62-126, 176-199) -/

/-- The module state the handlers read: the toggle `inspectEnabled` and the
host variable `main_api`. -/
structure Env where
  inspectEnabled : Bool
  main_api : String
deriving DecidableEq, Repr

/-- `isChatCompletion` (line 13). -/
def isChatCompletion (env : Env) : Bool := env.main_api == "openai"

/-- What the user leaves behind when the popup closes: whether `popup.show()`
resolved with a truthy result (Save), and the text then held by the text
area. -/
structure PopupOutcome where
  result : Bool
  value : Str
deriving DecidableEq, Repr

/-- `showPromptInspector` (line 176); `user` is what the user does with the
text put into the dialog. -/
def showPromptInspector (user : Str → PopupOutcome) (input : Str) : Str :=
  if !(user input).result then input else (user input).value

/-- The observable actions of a handler run. -/
inductive Effect where
  /-- The editor dialog was opened on this text. -/
  | popupShown (input : Str)
  | consoleDebug (msg : String)
  | consoleError (msg : String)
  | toastrError (msg : String)
deriving DecidableEq, Repr

/-- The event object of `CHAT_COMPLETION_PROMPT_READY`.  The array that
`data.chat` refers to is an object of the host: `chatRef` is the identity of
that object and `chat` its contents.  `splice` changes the contents and keeps
the identity; an assignment to `data.chat` would change both. -/
structure ChatData where
  chatRef : Nat
  chat : ChatValue
  dryRun : Bool
deriving DecidableEq, Repr

/-- The event object of `GENERATE_AFTER_COMBINE_PROMPTS`. -/
structure PromptData where
  prompt : Str
  dryRun : Bool
deriving DecidableEq, Repr

/-- The JavaScript engine the extension runs on, as far as line 92 depends on
it.  A call takes a bounded number of arguments: `maxArguments` is the largest
number the engine accepts, and spreading a longer list into a call throws a
`RangeError` whose message is `rangeErrorMessage`. -/
structure Engine where
  maxArguments : Nat
  rangeErrorMessage : String
deriving DecidableEq, Repr

/-- The statement `data.chat.splice(0, data.chat.length, ...chat)` under its
guard `Array.isArray(chat) && Array.isArray(data.chat)` (lines 91-93); `chat`
is the array returned by `fromReadableFormat`.  The call has two arguments
and, spread after them, every element of `chat`; the arguments are evaluated
before `splice` runs, so when they are too many the `RangeError` is thrown
with `data.chat` untouched.  Otherwise `splice` replaces the contents of the
array in place: the identity `chatRef` is kept. -/
def spliceChat (engine : Engine) (data : ChatData) (chat : List Message) :
    Except String ChatData :=
  match data.chat with
  | .array old =>
    if 2 + chat.length ≤ engine.maxArguments then
      .ok { data with chat := .array (splice old 0 old.length chat) }
    else .error engine.rangeErrorMessage
  | .notArray _ => .ok data

/-- The handler of `CHAT_COMPLETION_PROMPT_READY` (lines 62-100).  The result
is `Except.error` when an exception leaves the handler, otherwise the event
object after the run and the actions performed. -/
def onChatCompletionPromptReady (engine : Engine) (env : Env) (user : Str → PopupOutcome)
    (data : ChatData) : Except String (ChatData × List Effect) :=
  if !env.inspectEnabled then .ok (data, [])
  else if data.dryRun then
    .ok (data, [.consoleDebug "Prompt Inspector: Skipping dry run prompt"])
  else if !isChatCompletion env then
    .ok (data, [.consoleDebug "Prompt Inspector: Not a chat completion prompt"])
  else
    let readablePrompt := toReadableFormat data.chat
    let result := showPromptInspector user readablePrompt
    if result = readablePrompt then
      .ok (data, [.popupShown readablePrompt, .consoleDebug "Prompt Inspector: No changes"])
    else
      -- try
      match fromReadableFormat result >>= spliceChat engine data with
      | .ok data' =>
        .ok (data',
          [.popupShown readablePrompt, .consoleDebug "Prompt Inspector: Prompt updated"])
      -- catch (e): nothing was written before the exception
      | .error e =>
        .ok (data,
          [.popupShown readablePrompt,
           .consoleError "Prompt Inspector: Invalid JSON or readable format",
           .toastrError ("Invalid readable format: " ++ e)])

/-- The handler of `GENERATE_AFTER_COMBINE_PROMPTS` (lines 102-126). -/
def onGenerateAfterCombinePrompts (env : Env) (user : Str → PopupOutcome) (data : PromptData) :
    Except String (PromptData × List Effect) :=
  if !env.inspectEnabled then .ok (data, [])
  else if data.dryRun then
    .ok (data, [.consoleDebug "Prompt Inspector: Skipping dry run prompt"])
  else if isChatCompletion env then
    .ok (data, [.consoleDebug "Prompt Inspector: Not a chat completion prompt"])
  else
    let result := showPromptInspector user data.prompt
    if result = data.prompt then
      .ok (data, [.popupShown data.prompt, .consoleDebug "Prompt Inspector: No changes"])
    else
      .ok ({ data with prompt := result },
        [.popupShown data.prompt, .consoleDebug "Prompt Inspector: Prompt updated"])

/-- Whether a run opened the editor dialog. -/
def opensDialog (effects : List Effect) : Bool :=
  effects.any fun e => match e with
    | .popupShown _ => true
    | _ => false

/-- Whether a run reported an error to the user. -/
def reportsError (effects : List Effect) : Bool :=
  effects.any fun e => match e with
    | .toastrError _ => true
    | _ => false

/-! ## Declarative reading of the regular expressions -/

/-- What one node may consume at a position: `prev` is the character before
the position, `chunk` the text consumed, `rest` the input after it. -/
def Node.Consumes : Node → Option Char → Str → Str → Prop
  | .lineStart m, prev, chunk, _ => chunk = [] ∧ atStart m prev = true
  | .lineEnd m, _, chunk, rest => chunk = [] ∧ atEnd m rest = true
  | .lit c, _, chunk, _ => chunk = [c]
  | .rep cls min, _, chunk, _ => min ≤ chunk.length ∧ ∀ c ∈ chunk, cls c = true

/-- One way of matching the nodes at a position: `chunks` gives the text each
node consumes and `rest` is the input left after the last node. -/
def Parses : List Node → Option Char → List Str → Str → Prop
  | [], _, chunks, _ => chunks = []
  | n :: ns, prev, chunks, rest =>
    ∃ chunk tail, chunks = chunk :: tail ∧ n.Consumes prev chunk (tail.flatten ++ rest) ∧
      Parses ns (lastOr prev chunk) tail rest

/-! ## Vocabulary of the statements -/

/-- The text does not start with a white space character. -/
def noLeadingSpace (t : Str) : Bool :=
  match t.head? with
  | some c => !isWhiteSpace c
  | none => true

/-- The text does not end with a white space character. -/
def noTrailingSpace (t : Str) : Bool :=
  match t.getLast? with
  | some c => !isWhiteSpace c
  | none => true

/-- The split loop run from a state with fuel enough to reach the end of the
input. -/
def splitFrom (nodes : List Node) (prev : Option Char) (cur rest : Str) : List Str :=
  splitLoop nodes (2 * rest.length + 2) prev cur rest

/-- No match of the expression starts inside `b` when `b` is followed by
`after` and preceded by `prev`. -/
def NoMatchIn (nodes : List Node) (prev : Option Char) (b after : Str) : Prop :=
  ∀ b1 b2, b = b1 ++ b2 → b2 ≠ [] → matchNodes nodes (lastOr prev b1) (b2 ++ after) = none

/-- The text starts with one or more word characters, a colon, optional white
space and a newline. -/
def StartsWithRoleLine (t : Str) : Prop :=
  ∃ role ws rest, role ≠ [] ∧ (∀ c ∈ role, isWordChar c = true) ∧
    (∀ c ∈ ws, isWhiteSpace c = true) ∧ t = role ++ ':' :: (ws ++ '\n' :: rest)

/-- The shape of a message that decoding can return: the role is a non-empty
run of word characters, the content is non-empty and has no white space at
either end. -/
def WellShaped (m : Message) : Prop :=
  m.role ≠ [] ∧ (∀ c ∈ m.role, isWordChar c = true) ∧ m.content ≠ [] ∧
    noLeadingSpace m.content = true ∧ noTrailingSpace m.content = true

/-- `RegExp.prototype.test`: the expression matches somewhere in the text. -/
def regExpTest (nodes : List Node) (s : Str) : Bool := (regExpExec nodes none s).isSome

/-- What the template literal of one message puts before its separator line:
the role line, the content and a newline. -/
def blockBody (x : Message) : Str := x.role ++ ':' :: '\n' :: (x.content ++ ['\n'])

/-- The lines of a text: the pieces between line terminators. -/
def lines (s : Str) : List Str := s.splitOnP isLineTerminator

/-- The line consists solely of five or more `-`. -/
def solelyDashes (l : Str) : Bool := decide (5 ≤ l.length) && l.all isDash

/-- The line is five or more `-`, optionally followed by white space. -/
def isSeparatorLine (l : Str) : Bool :=
  decide (5 ≤ (l.takeWhile isDash).length) && (l.dropWhile isDash).all isWhiteSpace

/-- The line is made of white space only (possibly empty). -/
def isBlankLine (l : Str) : Bool := l.all isWhiteSpace

/-- The character before the position is a `-`. -/
def prevIsDash (p : Option Char) : Bool :=
  match p with
  | some d => isDash d
  | none => false

/-- The text after a position whose preceding character is `p` is made of
white space and of `-` only, every `-` follows a `-` or starts a line, and a
run of `-` that starts a line has five or more of them. -/
def Clean : Option Char → Str → Prop
  | _, [] => True
  | p, c :: r =>
    (isWhiteSpace c = true ∨
      (isDash c = true ∧ (prevIsDash p = true ∨
        (atStart true p = true ∧ 5 ≤ ((c :: r).takeWhile isDash).length)))) ∧
    Clean (some c) r

/-! ## Theorems -/

/-! ### The handlers -/

theorem showPromptInspector_cancel (user : Str → PopupOutcome) (input : Str)
    (h : (user input).result = false) : showPromptInspector user input = input := by
  simp [showPromptInspector, h]

theorem spliceChat_array (engine : Engine) (ref : Nat) (old chat : List Message) (dry : Bool)
    (h : 2 + chat.length ≤ engine.maxArguments) :
    spliceChat engine ⟨ref, .array old, dry⟩ chat = .ok ⟨ref, .array chat, dry⟩ := by
  simp [spliceChat, splice, h]

theorem spliceChat_too_long (engine : Engine) (ref : Nat) (old chat : List Message) (dry : Bool)
    (h : engine.maxArguments < 2 + chat.length) :
    spliceChat engine ⟨ref, .array old, dry⟩ chat = .error engine.rangeErrorMessage := by
  simp [spliceChat, Nat.not_le.2 h]

/-- C4. With inspection enabled, no dry run and chat-completion mode, when the
dialog returns a text that differs from the encoded chat and
`fromReadableFormat` throws on it, the handler catches the error: it returns
normally, the event object (the chat list with it) is what it was, and the
error is reported to the user. -/
theorem chatHandler_format_error_failsafe (engine : Engine) (env : Env)
    (user : Str → PopupOutcome) (data : ChatData) (e : String)
    (hen : env.inspectEnabled = true) (hdry : data.dryRun = false)
    (hmode : isChatCompletion env = true)
    (hdiff : showPromptInspector user (toReadableFormat data.chat) ≠ toReadableFormat data.chat)
    (herr : fromReadableFormat (showPromptInspector user (toReadableFormat data.chat)) = .error e) :
    onChatCompletionPromptReady engine env user data =
      .ok (data, [.popupShown (toReadableFormat data.chat),
        .consoleError "Prompt Inspector: Invalid JSON or readable format",
        .toastrError ("Invalid readable format: " ++ e)]) := by
  simp only [onChatCompletionPromptReady, hen, hdry, hmode, herr]
  simp [hdiff, bind, Except.bind]

theorem chatHandler_format_error_failsafe_witness :
    onChatCompletionPromptReady ⟨65536, "Maximum call stack size exceeded"⟩ ⟨true, "openai"⟩
        (fun _ => ⟨true, "notarole without colon".toList⟩)
        ⟨0, .array [⟨"user".toList, "hi".toList⟩], false⟩ =
      .ok (⟨0, .array [⟨"user".toList, "hi".toList⟩], false⟩,
        [.popupShown (toReadableFormat (.array [⟨"user".toList, "hi".toList⟩])),
         .consoleError "Prompt Inspector: Invalid JSON or readable format",
         .toastrError ("Invalid readable format: " ++ formatError)]) :=
  chatHandler_format_error_failsafe ⟨65536, "Maximum call stack size exceeded"⟩ ⟨true, "openai"⟩
    (fun _ => ⟨true, "notarole without colon".toList⟩)
    ⟨0, .array [⟨"user".toList, "hi".toList⟩], false⟩ formatError rfl rfl rfl (by decide) rfl

/-- What the structured handler does with an edit that decodes to a list the
engine can spread: the array that `data.chat` refers to keeps its identity and
holds exactly the decoded messages, in decoded order. -/
theorem chatHandler_edit_within_limit (engine : Engine) (env : Env)
    (user : Str → PopupOutcome) (ref : Nat) (old : List Message) (dryRun : Bool)
    (chat : List Message)
    (hen : env.inspectEnabled = true) (hdry : dryRun = false)
    (hmode : isChatCompletion env = true)
    (hdiff : showPromptInspector user (toReadableFormat (.array old)) ≠
      toReadableFormat (.array old))
    (hok : fromReadableFormat (showPromptInspector user (toReadableFormat (.array old))) =
      .ok chat)
    (hfit : 2 + chat.length ≤ engine.maxArguments) :
    onChatCompletionPromptReady engine env user ⟨ref, .array old, dryRun⟩ =
      .ok (⟨ref, .array chat, dryRun⟩, [.popupShown (toReadableFormat (.array old)),
        .consoleDebug "Prompt Inspector: Prompt updated"]) := by
  simp only [onChatCompletionPromptReady, hen, hdry, hmode, hok]
  simp [hdiff, bind, Except.bind, spliceChat_array engine ref old chat false hfit]

theorem chatHandler_edit_within_limit_example :
    onChatCompletionPromptReady ⟨65536, "Maximum call stack size exceeded"⟩ ⟨true, "openai"⟩
        (fun _ => ⟨true, "system:\nX\n-----\nuser:\nY".toList⟩)
        ⟨7, .array [⟨"user".toList, "hi".toList⟩, ⟨"user".toList, "there".toList⟩,
          ⟨"user".toList, "bye".toList⟩], false⟩ =
      .ok (⟨7, .array [⟨"system".toList, "X".toList⟩, ⟨"user".toList, "Y".toList⟩], false⟩,
        [.popupShown (toReadableFormat (.array [⟨"user".toList, "hi".toList⟩,
            ⟨"user".toList, "there".toList⟩, ⟨"user".toList, "bye".toList⟩])),
         .consoleDebug "Prompt Inspector: Prompt updated"]) :=
  chatHandler_edit_within_limit ⟨65536, "Maximum call stack size exceeded"⟩ ⟨true, "openai"⟩
    (fun _ => ⟨true, "system:\nX\n-----\nuser:\nY".toList⟩) 7
    [⟨"user".toList, "hi".toList⟩, ⟨"user".toList, "there".toList⟩,
      ⟨"user".toList, "bye".toList⟩] false
    [⟨"system".toList, "X".toList⟩, ⟨"user".toList, "Y".toList⟩] rfl rfl rfl (by decide) rfl
    (by decide)

/-- C5 does not hold of the code for a long edit.  With inspection enabled, no
dry run and chat-completion mode, when the chat of the request is a message
list and the dialog returns a text that differs from the encoded chat and
decodes to more messages than the engine can spread into one call, line 92
throws a `RangeError` inside the `try`: the chat list after the handler is the
old list, not the decoded one, and the user is told the format is invalid. -/
theorem chatHandler_edit_too_long (engine : Engine) (env : Env)
    (user : Str → PopupOutcome) (ref : Nat) (old : List Message) (dryRun : Bool)
    (chat : List Message)
    (hen : env.inspectEnabled = true) (hdry : dryRun = false)
    (hmode : isChatCompletion env = true)
    (hdiff : showPromptInspector user (toReadableFormat (.array old)) ≠
      toReadableFormat (.array old))
    (hok : fromReadableFormat (showPromptInspector user (toReadableFormat (.array old))) =
      .ok chat)
    (hlong : engine.maxArguments < 2 + chat.length) :
    onChatCompletionPromptReady engine env user ⟨ref, .array old, dryRun⟩ =
      .ok (⟨ref, .array old, dryRun⟩, [.popupShown (toReadableFormat (.array old)),
        .consoleError "Prompt Inspector: Invalid JSON or readable format",
        .toastrError ("Invalid readable format: " ++ engine.rangeErrorMessage)]) := by
  simp only [onChatCompletionPromptReady, hen, hdry, hmode, hok]
  simp [hdiff, bind, Except.bind, spliceChat_too_long engine ref old chat false hlong]

/-- C6. When the dialog resolves with the very text it was given (the encoded
chat for the structured handler, `data.prompt` for the flattened one), each
handler returns with its event object unchanged and reports no error, whatever
decoding that text would do; when the guards let the dialog open, the run does
nothing but open it and log that nothing changed. -/
theorem handlers_noop_on_unchanged_text (engine : Engine) (env : Env)
    (userC userP : Str → PopupOutcome) (cd : ChatData) (pd : PromptData)
    (hC : showPromptInspector userC (toReadableFormat cd.chat) = toReadableFormat cd.chat)
    (hP : showPromptInspector userP pd.prompt = pd.prompt) :
    (∃ effects, onChatCompletionPromptReady engine env userC cd = .ok (cd, effects) ∧
        reportsError effects = false ∧
        (env.inspectEnabled = true → cd.dryRun = false → isChatCompletion env = true →
          effects = [.popupShown (toReadableFormat cd.chat),
            .consoleDebug "Prompt Inspector: No changes"])) ∧
    (∃ effects, onGenerateAfterCombinePrompts env userP pd = .ok (pd, effects) ∧
        reportsError effects = false ∧
        (env.inspectEnabled = true → pd.dryRun = false → isChatCompletion env = false →
          effects = [.popupShown pd.prompt, .consoleDebug "Prompt Inspector: No changes"])) := by
  constructor
  · unfold onChatCompletionPromptReady
    by_cases h1 : env.inspectEnabled = true <;> by_cases h2 : cd.dryRun = true <;>
      by_cases h3 : isChatCompletion env = true <;> simp [h1, h2, h3, hC, reportsError]
  · unfold onGenerateAfterCombinePrompts
    by_cases h1 : env.inspectEnabled = true <;> by_cases h2 : pd.dryRun = true <;>
      by_cases h3 : isChatCompletion env = true <;> simp [h1, h2, h3, hP, reportsError]

theorem handlers_noop_on_unchanged_text_witness :
    fromReadableFormat (toReadableFormat (.array [⟨"user".toList, []⟩])) = .error formatError ∧
    fromReadableFormat (toReadableFormat (.array [⟨"user".toList, " A ".toList⟩])) =
      .ok [⟨"user".toList, "A".toList⟩] ∧
    onChatCompletionPromptReady ⟨65536, "Maximum call stack size exceeded"⟩ ⟨true, "openai"⟩
        (fun _ => ⟨false, "edited".toList⟩) ⟨0, .array [⟨"user".toList, []⟩], false⟩ =
      .ok (⟨0, .array [⟨"user".toList, []⟩], false⟩,
        [.popupShown (toReadableFormat (.array [⟨"user".toList, []⟩])),
         .consoleDebug "Prompt Inspector: No changes"]) ∧
    onChatCompletionPromptReady ⟨65536, "Maximum call stack size exceeded"⟩ ⟨true, "openai"⟩
        (fun s => ⟨true, s⟩) ⟨0, .array [⟨"user".toList, " A ".toList⟩], false⟩ =
      .ok (⟨0, .array [⟨"user".toList, " A ".toList⟩], false⟩,
        [.popupShown (toReadableFormat (.array [⟨"user".toList, " A ".toList⟩])),
         .consoleDebug "Prompt Inspector: No changes"]) ∧
    onGenerateAfterCombinePrompts ⟨true, "kobold"⟩ (fun s => ⟨true, s⟩)
        ⟨"Once upon a time".toList, false⟩ =
      .ok (⟨"Once upon a time".toList, false⟩,
        [.popupShown "Once upon a time".toList,
         .consoleDebug "Prompt Inspector: No changes"]) := by
  have h1 := handlers_noop_on_unchanged_text ⟨65536, "Maximum call stack size exceeded"⟩
    ⟨true, "openai"⟩ (fun _ => ⟨false, "edited".toList⟩) (fun s => ⟨true, s⟩)
    ⟨0, .array [⟨"user".toList, []⟩], false⟩ ⟨"Once upon a time".toList, false⟩ rfl rfl
  have h2 := handlers_noop_on_unchanged_text ⟨65536, "Maximum call stack size exceeded"⟩
    ⟨true, "openai"⟩ (fun s => ⟨true, s⟩) (fun s => ⟨true, s⟩)
    ⟨0, .array [⟨"user".toList, " A ".toList⟩], false⟩ ⟨"Once upon a time".toList, false⟩ rfl rfl
  have h3 := handlers_noop_on_unchanged_text ⟨65536, "Maximum call stack size exceeded"⟩
    ⟨true, "kobold"⟩ (fun s => ⟨true, s⟩) (fun s => ⟨true, s⟩)
    ⟨0, .array [⟨"user".toList, " A ".toList⟩], false⟩ ⟨"Once upon a time".toList, false⟩ rfl rfl
  refine ⟨rfl, rfl, ?_, ?_, ?_⟩
  · obtain ⟨effects, he, _, hx⟩ := h1.1
    rw [he, hx rfl rfl rfl]
  · obtain ⟨effects, he, _, hx⟩ := h2.1
    rw [he, hx rfl rfl rfl]
  · obtain ⟨effects, he, _, hx⟩ := h3.2
    rw [he, hx rfl rfl rfl]

/-- C7. If the toggle is off, or the event is a dry run, or the mode is not
the one the handler expects (the structured handler expects chat completion,
the flattened handler expects any other mode), the handler returns without
opening the dialog and leaves its event object unchanged; and in one and the
same environment the two handlers never both open the dialog. -/
theorem handlers_guards (engine : Engine) (env : Env) (userC userP : Str → PopupOutcome)
    (cd : ChatData) (pd : PromptData) :
    (env.inspectEnabled = false ∨ cd.dryRun = true ∨ isChatCompletion env = false →
      ∃ effects, onChatCompletionPromptReady engine env userC cd = .ok (cd, effects) ∧
        opensDialog effects = false) ∧
    (env.inspectEnabled = false ∨ pd.dryRun = true ∨ isChatCompletion env = true →
      ∃ effects, onGenerateAfterCombinePrompts env userP pd = .ok (pd, effects) ∧
        opensDialog effects = false) ∧
    (∀ (r1 : ChatData × List Effect) (r2 : PromptData × List Effect),
      onChatCompletionPromptReady engine env userC cd = .ok r1 →
      onGenerateAfterCombinePrompts env userP pd = .ok r2 →
      ¬ (opensDialog r1.2 = true ∧ opensDialog r2.2 = true)) := by
  refine ⟨?_, ?_, ?_⟩
  · intro h
    unfold onChatCompletionPromptReady
    by_cases h1 : env.inspectEnabled = true <;> by_cases h2 : cd.dryRun = true <;>
      by_cases h3 : isChatCompletion env = true <;> simp_all [opensDialog]
  · intro h
    unfold onGenerateAfterCombinePrompts
    by_cases h1 : env.inspectEnabled = true <;> by_cases h2 : pd.dryRun = true <;>
      by_cases h3 : isChatCompletion env = true <;> simp_all [opensDialog]
  · intro r1 r2 e1 e2
    by_cases h3 : isChatCompletion env = true
    · have : opensDialog r2.2 = false := by
        revert e2
        unfold onGenerateAfterCombinePrompts
        by_cases h1 : env.inspectEnabled = true <;> by_cases h2 : pd.dryRun = true <;>
          simp [h1, h2, h3, opensDialog] <;> (intro h; subst h; simp)
      simp [this]
    · have : opensDialog r1.2 = false := by
        revert e1
        unfold onChatCompletionPromptReady
        by_cases h1 : env.inspectEnabled = true <;> by_cases h2 : cd.dryRun = true <;>
          simp [h1, h2, h3, opensDialog] <;> (intro h; subst h; simp)
      simp [this]

theorem handlers_guards_witness :
    (∃ effects, onChatCompletionPromptReady ⟨65536, "Maximum call stack size exceeded"⟩
        ⟨true, "kobold"⟩ (fun _ => ⟨true, "x".toList⟩)
        ⟨0, .array [⟨"user".toList, "hi".toList⟩], false⟩ =
        .ok (⟨0, .array [⟨"user".toList, "hi".toList⟩], false⟩, effects) ∧
      opensDialog effects = false) ∧
    (∃ effects, onGenerateAfterCombinePrompts ⟨true, "kobold"⟩ (fun _ => ⟨true, "x".toList⟩)
        ⟨"Once".toList, true⟩ = .ok (⟨"Once".toList, true⟩, effects) ∧
      opensDialog effects = false) :=
  ⟨(handlers_guards ⟨65536, "Maximum call stack size exceeded"⟩ ⟨true, "kobold"⟩
      (fun _ => ⟨true, "x".toList⟩) (fun _ => ⟨true, "x".toList⟩)
      ⟨0, .array [⟨"user".toList, "hi".toList⟩], false⟩ ⟨"Once".toList, true⟩).1
      (Or.inr (Or.inr rfl)),
   (handlers_guards ⟨65536, "Maximum call stack size exceeded"⟩ ⟨true, "kobold"⟩
      (fun _ => ⟨true, "x".toList⟩) (fun _ => ⟨true, "x".toList⟩)
      ⟨0, .array [⟨"user".toList, "hi".toList⟩], false⟩ ⟨"Once".toList, true⟩).2.1
      (Or.inr (Or.inl rfl))⟩

/-! ### Encoding -/

theorem renderItem_eq (item : Message) :
    renderItem item = item.role ++ ':' :: '\n' :: (item.content ++ '\n' :: List.replicate 20 '-') := by
  simp [renderItem]

theorem toReadableFormat_nil : toReadableFormat (.array []) = [] := rfl

theorem toReadableFormat_single (x : Message) :
    toReadableFormat (.array [x]) = renderItem x := by
  simp [toReadableFormat, join, List.intercalate]

theorem toReadableFormat_cons_cons (x y : Message) (m : List Message) :
    toReadableFormat (.array (x :: y :: m)) =
      renderItem x ++ '\n' :: toReadableFormat (.array (y :: m)) := by
  simp [toReadableFormat, join, List.intercalate]

/-- C2. The encoding of a message list is, for each message in order, the
role, `:`, a newline, the content, a newline and exactly twenty `-`, these
blocks joined by one newline, with nothing after the last separator; the
two-message example of the specification comes out as written there. -/
theorem toReadableFormat_exact (m : List Message) :
    toReadableFormat (.array m) =
        List.intercalate ['\n']
          (m.map fun x => x.role ++ [':', '\n'] ++ x.content ++ ['\n'] ++ List.replicate 20 '-') ∧
    (∀ x, ∃ before, toReadableFormat (.array (m ++ [x])) =
        before ++ (x.role ++ [':', '\n'] ++ x.content ++ ['\n'] ++ List.replicate 20 '-') ∧
        (m = [] → before = []) ∧ (m ≠ [] → before = toReadableFormat (.array m) ++ ['\n'])) ∧
    toReadableFormat (.array [⟨"system".toList, "A".toList⟩, ⟨"user".toList, "B".toList⟩]) =
      "system:\nA\n--------------------\nuser:\nB\n--------------------".toList := by
  have hr : ∀ x : Message, renderItem x =
      x.role ++ [':', '\n'] ++ x.content ++ ['\n'] ++ List.replicate 20 '-' := by
    intro x; rw [renderItem_eq]; simp
  refine ⟨?_, ?_, rfl⟩
  · simp only [toReadableFormat, join]
    congr 1
    · exact List.map_congr_left (fun x _ => hr x)
  · intro x
    induction m with
    | nil => exact ⟨[], by simp [toReadableFormat_single, hr]⟩
    | cons y m ih =>
      obtain ⟨b, hb, _, _⟩ := ih
      refine ⟨toReadableFormat (.array (y :: m)) ++ ['\n'], ?_, by simp, by simp⟩
      cases m with
      | nil => simp [toReadableFormat_cons_cons, toReadableFormat_single, hr]
      | cons z m =>
        rw [List.cons_append, List.cons_append, toReadableFormat_cons_cons,
          toReadableFormat_cons_cons, ← List.cons_append, hb]
        rename_i h1 h2
        have := h2 (by simp)
        subst this
        simp
/-! ### The matcher against the declarative reading -/

theorem lastOr_nil (prev : Option Char) : lastOr prev [] = prev := rfl

theorem lastOr_cons (prev : Option Char) (c : Char) (s : Str) :
    lastOr prev (c :: s) = lastOr (some c) s := by
  cases s with
  | nil => rfl
  | cons d s =>
    simp only [lastOr, List.getLast?_cons_cons]
    cases h : (d :: s).getLast? with
    | none => simp at h
    | some x => rfl

theorem lastOr_append (prev : Option Char) (a b : Str) :
    lastOr prev (a ++ b) = lastOr (lastOr prev a) b := by
  induction a generalizing prev with
  | nil => rfl
  | cons c a ih => rw [List.cons_append, lastOr_cons, lastOr_cons, ih]

theorem repMatch_sound (cls : Char → Bool) (k : Option Char → Str → Option (List Str))
    (s : Str) : ∀ (min : Nat) (prev : Option Char) (chunk : Str) (r : List Str),
    repMatch cls k min prev s = some (chunk, r) →
    ∃ s', s = chunk ++ s' ∧ min ≤ chunk.length ∧ (∀ c ∈ chunk, cls c = true) ∧
      k (lastOr prev chunk) s' = some r := by
  induction s with
  | nil =>
    intro min prev chunk r h
    simp only [repMatch] at h
    split at h
    · next h0 =>
      cases hk : k prev [] with
      | none => simp [hk] at h
      | some r' =>
        simp [hk] at h
        obtain ⟨rfl, rfl⟩ := h
        exact ⟨[], rfl, by simp [h0], by simp, hk⟩
    · simp at h
  | cons c s ih =>
    intro min prev chunk r h
    have fallback : (if min = 0 then (k prev (c :: s)).map (fun r => (([] : Str), r)) else none) =
        some (chunk, r) →
        ∃ s', c :: s = chunk ++ s' ∧ min ≤ chunk.length ∧ (∀ c ∈ chunk, cls c = true) ∧
          k (lastOr prev chunk) s' = some r := by
      intro h
      split at h
      · next h0 =>
        cases hk : k prev (c :: s) with
        | none => simp [hk] at h
        | some r' =>
          simp [hk] at h
          obtain ⟨rfl, rfl⟩ := h
          exact ⟨c :: s, rfl, by simp [h0], by simp, hk⟩
      · simp at h
    simp only [repMatch] at h
    split at h
    · next hc =>
      split at h
      · next chunk' r' hm =>
        simp at h
        obtain ⟨rfl, rfl⟩ := h
        obtain ⟨s', hs, hlen, hall, hk⟩ := ih _ _ _ _ hm
        refine ⟨s', by simp [hs], by simp; omega, ?_, by rw [lastOr_cons]; exact hk⟩
        intro d hd
        rcases List.mem_cons.1 hd with rfl | hd
        · exact hc
        · exact hall d hd
      · exact fallback h
    · exact fallback h

theorem repMatch_complete (cls : Char → Bool) (k : Option Char → Str → Option (List Str))
    (chunk : Str) : ∀ (min : Nat) (prev : Option Char) (s' : Str),
    min ≤ chunk.length → (∀ c ∈ chunk, cls c = true) →
    (k (lastOr prev chunk) s').isSome = true →
    (repMatch cls k min prev (chunk ++ s')).isSome = true := by
  induction chunk with
  | nil =>
    intro min prev s' hmin _ hk
    have h0 : min = 0 := by simpa using hmin
    subst h0
    rw [lastOr_nil] at hk
    cases s' with
    | nil => simpa [repMatch] using hk
    | cons c t =>
      simp only [List.nil_append, repMatch]
      split
      · split
        · simp
        · simpa using hk
      · simpa using hk
  | cons c chunk ih =>
    intro min prev s' hmin hall hk
    rw [lastOr_cons] at hk
    have hrec := ih (min - 1) (some c) s' (by simp at hmin; omega)
      (fun d hd => hall d (List.mem_cons_of_mem _ hd)) hk
    simp only [List.cons_append, repMatch, hall c (List.mem_cons_self _ _), if_true]
    cases hm : repMatch cls k (min - 1) (some c) (chunk ++ s') with
    | none => simp [hm] at hrec
    | some x => simp

theorem matchNodes_sound (nodes : List Node) : ∀ (prev : Option Char) (s : Str)
    (chunks : List Str), matchNodes nodes prev s = some chunks →
    ∃ rest, s = chunks.flatten ++ rest ∧ Parses nodes prev chunks rest := by
  induction nodes with
  | nil =>
    intro prev s chunks h
    simp [matchNodes] at h
    subst h
    exact ⟨s, by simp, rfl⟩
  | cons n ns ih =>
    intro prev s chunks h
    cases n with
    | lineStart m =>
      simp only [matchNodes] at h
      split at h
      · next hs =>
        cases hm : matchNodes ns prev s with
        | none => simp [hm] at h
        | some tail =>
          simp [hm] at h
          subst h
          obtain ⟨rest, hrest, hp⟩ := ih _ _ _ hm
          exact ⟨rest, by simpa using hrest, [], tail, rfl, ⟨rfl, hs⟩, hp⟩
      · simp at h
    | lineEnd m =>
      simp only [matchNodes] at h
      split at h
      · next hs =>
        cases hm : matchNodes ns prev s with
        | none => simp [hm] at h
        | some tail =>
          simp [hm] at h
          subst h
          obtain ⟨rest, hrest, hp⟩ := ih _ _ _ hm
          exact ⟨rest, by simpa using hrest, [], tail, rfl, ⟨rfl, hrest ▸ hs⟩, hp⟩
      · simp at h
    | lit c =>
      cases s with
      | nil => simp [matchNodes] at h
      | cons d s =>
        simp only [matchNodes] at h
        split at h
        · next hd =>
          cases hm : matchNodes ns (some d) s with
          | none => simp [hm] at h
          | some tail =>
            simp [hm] at h
            subst h
            obtain ⟨rest, hrest, hp⟩ := ih _ _ _ hm
            exact ⟨rest, by simp [hrest], [d], tail, rfl, by simp [Node.Consumes, hd], hp⟩
        · simp at h
    | rep cls min =>
      simp only [matchNodes] at h
      cases hm : repMatch cls (matchNodes ns) min prev s with
      | none => simp [hm] at h
      | some x =>
        obtain ⟨chunk, tail⟩ := x
        simp [hm] at h
        subst h
        obtain ⟨s', hs, hlen, hall, hk⟩ := repMatch_sound _ _ _ _ _ _ _ hm
        obtain ⟨rest, hrest, hp⟩ := ih _ _ _ hk
        exact ⟨rest, by simp [hs, hrest], chunk, tail, rfl, ⟨hlen, hall⟩, hp⟩

theorem matchNodes_complete (nodes : List Node) : ∀ (prev : Option Char)
    (chunks : List Str) (rest : Str), Parses nodes prev chunks rest →
    (matchNodes nodes prev (chunks.flatten ++ rest)).isSome = true := by
  induction nodes with
  | nil => intro prev chunks rest _; simp [matchNodes]
  | cons n ns ih =>
    intro prev chunks rest h
    obtain ⟨chunk, tail, rfl, hc, hp⟩ := h
    have hrec := ih _ _ _ hp
    cases n with
    | lineStart m =>
      obtain ⟨rfl, hs⟩ := hc
      simp only [matchNodes, List.flatten_cons, List.nil_append, hs, if_true, lastOr_nil] at hrec ⊢
      simpa using hrec
    | lineEnd m =>
      obtain ⟨rfl, hs⟩ := hc
      simp only [matchNodes, List.flatten_cons, List.nil_append, hs, if_true, lastOr_nil] at hrec ⊢
      simpa using hrec
    | lit c =>
      have hc' : chunk = [c] := hc
      subst hc'
      simp only [List.flatten_cons, List.singleton_append, List.cons_append, List.nil_append,
        matchNodes, if_true]
      simpa [lastOr] using hrec
    | rep cls min =>
      obtain ⟨hlen, hall⟩ := hc
      have := repMatch_complete cls (matchNodes ns) chunk min prev (tail.flatten ++ rest)
        hlen hall hrec
      simp only [matchNodes, List.flatten_cons, List.append_assoc]
      simpa using this

/-! ### Character classes -/

theorem isDash_iff (c : Char) : isDash c = true ↔ c = '-' := by
  constructor
  · intro h
    simp only [isDash, beq_iff_eq] at h
    apply Char.ext
    apply UInt32.ext
    exact h
  · rintro rfl; rfl

theorem isWhiteSpace_of_isLineTerminator {c : Char} (h : isLineTerminator c = true) :
    isWhiteSpace c = true := by
  simp [isWhiteSpace, h]

theorem not_isWhiteSpace_of_isDash {c : Char} (h : isDash c = true) :
    isWhiteSpace c = false := by
  rw [isDash_iff] at h; subst h; rfl

theorem not_isLineTerminator_of_isDash {c : Char} (h : isDash c = true) :
    isLineTerminator c = false := by
  rw [isDash_iff] at h; subst h; rfl

theorem not_isDash_of_isWhiteSpace {c : Char} (h : isWhiteSpace c = true) :
    isDash c = false := by
  cases hd : isDash c with
  | false => rfl
  | true => rw [not_isWhiteSpace_of_isDash hd] at h; cases h

theorem not_isWhiteSpace_of_isWordChar {c : Char} (h : isWordChar c = true) :
    isWhiteSpace c = false := by
  simp only [isWordChar, Bool.or_eq_true, Bool.and_eq_true, decide_eq_true_eq, beq_iff_eq] at h
  cases hw : isWhiteSpace c with
  | false => rfl
  | true =>
    simp only [isWhiteSpace, isLineTerminator, Bool.or_eq_true, Bool.and_eq_true,
      decide_eq_true_eq, beq_iff_eq] at hw
    omega

theorem not_isDash_of_isWordChar {c : Char} (h : isWordChar c = true) : isDash c = false := by
  cases hd : isDash c with
  | false => rfl
  | true => rw [isDash_iff] at hd; subst hd; cases h

theorem not_isLineTerminator_of_isWordChar {c : Char} (h : isWordChar c = true) :
    isLineTerminator c = false := by
  cases hl : isLineTerminator c with
  | false => rfl
  | true =>
    have := isWhiteSpace_of_isLineTerminator hl
    rw [not_isWhiteSpace_of_isWordChar h] at this
    cases this

/-! ### The two expressions of the source -/

theorem sepRe_sound {prev : Option Char} {s : Str} {chunks : List Str}
    (h : matchNodes sepRe prev s = some chunks) :
    ∃ ds ws rest, chunks.flatten = ds ++ ws ∧ s = ds ++ ws ++ rest ∧
      atStart true prev = true ∧ 5 ≤ ds.length ∧ (∀ c ∈ ds, isDash c = true) ∧
      (∀ c ∈ ws, isWhiteSpace c = true) ∧ atEnd true rest = true := by
  obtain ⟨rest, hs, hp⟩ := matchNodes_sound _ _ _ _ h
  obtain ⟨c0, t0, rfl, ⟨rfl, hstart⟩, hp⟩ := hp
  obtain ⟨ds, t1, rfl, ⟨hlen, hds⟩, hp⟩ := hp
  obtain ⟨ws, t2, rfl, ⟨_, hws⟩, hp⟩ := hp
  obtain ⟨c3, t3, rfl, ⟨rfl, hend⟩, hp⟩ := hp
  have : t3 = [] := hp
  subst this
  refine ⟨ds, ws, rest, by simp, by simpa using hs, hstart, hlen, hds, hws, ?_⟩
  simpa using hend

theorem sepRe_complete (prev : Option Char) (ds ws rest : Str)
    (hstart : atStart true prev = true) (hlen : 5 ≤ ds.length)
    (hds : ∀ c ∈ ds, isDash c = true) (hws : ∀ c ∈ ws, isWhiteSpace c = true)
    (hend : atEnd true rest = true) :
    (matchNodes sepRe prev (ds ++ ws ++ rest)).isSome = true := by
  have hp : Parses sepRe prev [[], ds, ws, []] rest :=
    ⟨[], _, rfl, ⟨rfl, hstart⟩, ds, _, rfl, ⟨hlen, hds⟩, ws, _, rfl, ⟨Nat.zero_le _, hws⟩,
      [], _, rfl, ⟨rfl, by simpa using hend⟩, rfl⟩
  simpa using matchNodes_complete _ _ _ _ hp

theorem roleRe_sound {prev : Option Char} {s : Str} {chunks : List Str}
    (h : matchNodes roleRe prev s = some chunks) :
    ∃ role ws rest, chunks = [[], role, [':'], ws, ['\n']] ∧
      s = role ++ ':' :: (ws ++ '\n' :: rest) ∧ prev = none ∧ role ≠ [] ∧
      (∀ c ∈ role, isWordChar c = true) ∧ (∀ c ∈ ws, isWhiteSpace c = true) := by
  obtain ⟨rest, hs, hp⟩ := matchNodes_sound _ _ _ _ h
  obtain ⟨c0, t0, rfl, ⟨rfl, hstart⟩, hp⟩ := hp
  obtain ⟨role, t1, rfl, ⟨hlen, hrole⟩, hp⟩ := hp
  obtain ⟨c2, t2, rfl, hc2, hp⟩ := hp
  obtain ⟨ws, t3, rfl, ⟨_, hws⟩, hp⟩ := hp
  obtain ⟨c4, t4, rfl, hc4, hp⟩ := hp
  have h4 : t4 = [] := hp
  have h2 : c2 = [':'] := hc2
  have h3 : c4 = ['\n'] := hc4
  subst h4 h2 h3
  refine ⟨role, ws, rest, rfl, by simpa using hs, ?_, ?_, hrole, hws⟩
  · cases prev with
    | none => rfl
    | some c => simp [atStart] at hstart
  · intro h0; subst h0; simp at hlen

theorem roleRe_complete {role ws rest : Str} (hne : role ≠ [])
    (hrole : ∀ c ∈ role, isWordChar c = true) (hws : ∀ c ∈ ws, isWhiteSpace c = true) :
    (matchNodes roleRe none (role ++ ':' :: (ws ++ '\n' :: rest))).isSome = true := by
  have hp : Parses roleRe none [[], role, [':'], ws, ['\n']] rest :=
    ⟨[], _, rfl, ⟨rfl, rfl⟩, role, _, rfl, ⟨List.length_pos.2 hne, hrole⟩, [':'], _, rfl, rfl,
      ws, _, rfl, ⟨Nat.zero_le _, hws⟩, ['\n'], _, rfl, rfl, rfl⟩
  simpa using matchNodes_complete _ _ _ _ hp

theorem regExpExec_roleRe_some (c : Char) (s : Str) : regExpExec roleRe (some c) s = none := by
  induction s generalizing c with
  | nil => simp [regExpExec, roleRe, matchNodes, atStart]
  | cons d s ih =>
    have h : matchNodes roleRe (some c) (d :: s) = none := by
      simp [roleRe, matchNodes, atStart]
    simp only [regExpExec, h]
    exact ih d

theorem strMatch_roleRe (s : Str) : strMatch s roleRe = matchNodes roleRe none s := by
  cases s with
  | nil => rfl
  | cons c s =>
    simp only [strMatch, regExpExec]
    cases h : matchNodes roleRe none (c :: s) with
    | none => simp [regExpExec_roleRe_some]
    | some r => rfl

/-! ### `trim` -/

theorem trim_eq_nil_iff (s : Str) : trim s = [] ↔ ∀ c ∈ s, isWhiteSpace c = true := by
  simp only [trim, List.rdropWhile_eq_nil_iff]
  constructor
  · intro h
    have : List.dropWhile isWhiteSpace s = [] := by
      cases hd : List.dropWhile isWhiteSpace s with
      | nil => rfl
      | cons c r =>
        have h1 := h c (by simp [hd])
        have h2 := List.head?_dropWhile_not isWhiteSpace s
        simp [hd, h1] at h2
    exact List.dropWhile_eq_nil_iff.1 this
  · intro h c hc
    exact h c (List.dropWhile_subset _ hc)

theorem noLeadingSpace_trim (s : Str) : noLeadingSpace (trim s) = true := by
  unfold noLeadingSpace
  cases hh : (trim s).head? with
  | none => rfl
  | some c =>
    obtain ⟨r, hr⟩ := List.head?_eq_some_iff.1 hh
    obtain ⟨t, ht⟩ : trim s <+: List.dropWhile isWhiteSpace s := List.rdropWhile_prefix _ _
    have h2 := List.head?_dropWhile_not isWhiteSpace s
    rw [← ht, hr] at h2
    simpa using h2

theorem noTrailingSpace_trim (s : Str) : noTrailingSpace (trim s) = true := by
  unfold noTrailingSpace
  cases hh : (trim s).getLast? with
  | none => rfl
  | some c =>
    have hne : trim s ≠ [] := by intro h0; simp [h0] at hh
    have := List.rdropWhile_last_not isWhiteSpace (List.dropWhile isWhiteSpace s) hne
    rw [List.getLast?_eq_getLast _ hne] at hh
    simp only [Option.some.injEq] at hh
    simp only [trim] at hh
    rw [hh] at this
    simpa using this

theorem trim_sandwich (a t b : Str) (ha : ∀ c ∈ a, isWhiteSpace c = true)
    (hb : ∀ c ∈ b, isWhiteSpace c = true) (hl : noLeadingSpace t = true)
    (ht : noTrailingSpace t = true) : trim (a ++ t ++ b) = t := by
  have hb' : ∀ c ∈ b.reverse, isWhiteSpace c = true := fun c hc => hb c (List.mem_reverse.1 hc)
  cases t with
  | nil =>
    rw [trim_eq_nil_iff]
    intro c hc
    simp only [List.append_nil, List.mem_append] at hc
    exact hc.elim (ha c) (hb c)
  | cons h t =>
    have hh : isWhiteSpace h = false := by simpa [noLeadingSpace] using hl
    have h1 : List.dropWhile isWhiteSpace (a ++ (h :: t) ++ b) = (h :: t) ++ b := by
      rw [List.append_assoc, List.dropWhile_append_of_pos ha, List.cons_append,
        List.dropWhile_cons_of_neg (by simp [hh])]
    rw [trim, h1, List.rdropWhile, List.reverse_append, List.dropWhile_append_of_pos hb']
    cases hr : (h :: t).reverse with
    | nil => simp at hr
    | cons l r =>
      have hlast : (h :: t).getLast? = some l := by
        rw [← List.head?_reverse, hr]; rfl
      have hl' : isWhiteSpace l = false := by
        simpa [noTrailingSpace, hlast] using ht
      rw [List.dropWhile_cons_of_neg (by simp [hl']), ← hr, List.reverse_reverse]

theorem trim_of_trimmed (t : Str) (hl : noLeadingSpace t = true)
    (ht : noTrailingSpace t = true) : trim t = t := by
  simpa using trim_sandwich [] t [] (by simp) (by simp) hl ht

/-! ### The split loop -/

theorem splitLoop_fuel (nodes : List Node) (f1 : Nat) : ∀ (f2 : Nat) (prev : Option Char)
    (cur rest : Str),
    2 * rest.length + (if cur = [] then 0 else 1) < f1 →
    2 * rest.length + (if cur = [] then 0 else 1) < f2 →
    splitLoop nodes f1 prev cur rest = splitLoop nodes f2 prev cur rest := by
  induction f1 with
  | zero => intro f2 prev cur rest h1; omega
  | succ f1 ih =>
    intro f2 prev cur rest h1 h2
    cases f2 with
    | zero => omega
    | succ f2 =>
      cases rest with
      | nil => simp [splitLoop]
      | cons c rest =>
        simp only [splitLoop]
        simp only [List.length_cons] at h1 h2
        have hadv : splitLoop nodes f1 (some c) (c :: cur) rest =
            splitLoop nodes f2 (some c) (c :: cur) rest := by
          apply ih <;> simp <;> split at h1 <;> omega
        cases hm : matchNodes nodes prev (c :: rest) with
        | none => exact hadv
        | some chunks =>
          simp only
          split
          · exact hadv
          · next hne =>
            congr 1
            have hlen : ((c :: rest).drop chunks.flatten.length).length ≤ rest.length + 1 := by
              simp
            by_cases h0 : chunks.flatten.length = 0
            · have hc : cur ≠ [] := fun hc => hne ⟨h0, hc⟩
              simp only [hc, if_false] at h1 h2
              apply ih <;> simp [h0] <;> omega
            · have hlen : ((c :: rest).drop chunks.flatten.length).length ≤ rest.length := by
                rw [List.length_drop, List.length_cons]; omega
              apply ih <;> simp only [if_true] <;> split at h1 <;> omega

theorem splitFrom_nil (nodes : List Node) (prev : Option Char) (cur : Str) :
    splitFrom nodes prev cur [] = [cur.reverse] := rfl

theorem splitFrom_cons_none {nodes : List Node} {prev : Option Char} {c : Char} {rest : Str}
    (cur : Str) (h : matchNodes nodes prev (c :: rest) = none) :
    splitFrom nodes prev cur (c :: rest) = splitFrom nodes (some c) (c :: cur) rest := by
  simp only [splitFrom, List.length_cons, splitLoop, h]
  apply splitLoop_fuel <;> simp

theorem splitFrom_cons_some {nodes : List Node} {prev : Option Char} {c : Char} {rest : Str}
    {chunks : List Str} (cur : Str) (h : matchNodes nodes prev (c :: rest) = some chunks)
    (hpos : 0 < chunks.flatten.length) :
    splitFrom nodes prev cur (c :: rest) =
      cur.reverse :: splitFrom nodes (lastOr prev ((c :: rest).take chunks.flatten.length)) []
        ((c :: rest).drop chunks.flatten.length) := by
  simp only [splitFrom, List.length_cons, splitLoop, h]
  rw [if_neg (by omega)]
  congr 1
  apply splitLoop_fuel
  · simp; omega
  · simp

theorem split_eq_splitFrom {nodes : List Node} {s : Str} (h : s ≠ []) :
    split s nodes = splitFrom nodes none [] s := by
  cases s with
  | nil => exact absurd rfl h
  | cons c s =>
    simp only [split, splitFrom]
    apply splitLoop_fuel
    · simp
    · simp

theorem split_nil_sepRe : split [] sepRe = [[]] := rfl

theorem NoMatchIn.append {nodes : List Node} {prev : Option Char} {a b after : Str}
    (ha : NoMatchIn nodes prev a (b ++ after)) (hb : NoMatchIn nodes (lastOr prev a) b after) :
    NoMatchIn nodes prev (a ++ b) after := by
  intro b1 b2 h hne
  rcases List.append_eq_append_iff.1 h with ⟨a', rfl, rfl⟩ | ⟨b', rfl, rfl⟩
  · rw [lastOr_append]
    exact hb _ _ rfl hne
  · by_cases hb' : b' = []
    · subst hb'
      have := hb [] b rfl (by simpa using hne)
      simpa [lastOr_nil] using this
    · have := ha b1 b' rfl hb'
      simpa using this

theorem splitFrom_skip {nodes : List Node} (b : Str) : ∀ (prev : Option Char) (cur after : Str),
    NoMatchIn nodes prev b after →
    splitFrom nodes prev cur (b ++ after) =
      splitFrom nodes (lastOr prev b) (b.reverse ++ cur) after := by
  induction b with
  | nil => intro prev cur after _; rfl
  | cons c b ih =>
    intro prev cur after h
    have h0 : matchNodes nodes prev (c :: (b ++ after)) = none := by
      simpa [lastOr_nil] using h [] (c :: b) rfl (by simp)
    rw [List.cons_append, splitFrom_cons_none cur h0, lastOr_cons, ih]
    · simp
    · intro b1 b2 hb hne
      have := h (c :: b1) b2 (by simp [hb]) hne
      rwa [lastOr_cons] at this

/-! ### One step of the decoding loop -/

theorem trim_skip_space (a s : Str) (ha : ∀ c ∈ a, isWhiteSpace c = true) :
    trim (a ++ s) = trim s := by
  simp only [trim, List.dropWhile_append_of_pos ha]

theorem role_prefix_unique : ∀ (role role' x x' : Str),
    (∀ c ∈ role, isWordChar c = true) → (∀ c ∈ role', isWordChar c = true) →
    role ++ ':' :: x = role' ++ ':' :: x' → role = role' ∧ x = x' := by
  intro role
  induction role with
  | nil =>
    intro role' x x' _ h' h
    cases role' with
    | nil => simpa using h
    | cons c r =>
      simp only [List.nil_append, List.cons_append, List.cons.injEq] at h
      have := h' c (List.mem_cons_self _ _)
      rw [← h.1] at this
      cases this
  | cons c r ih =>
    intro role' x x' h1 h' h
    cases role' with
    | nil =>
      simp only [List.nil_append, List.cons_append, List.cons.injEq] at h
      have := h1 c (List.mem_cons_self _ _)
      rw [h.1] at this
      cases this
    | cons c' r' =>
      simp only [List.cons_append, List.cons.injEq] at h
      obtain ⟨rfl, h⟩ := h
      obtain ⟨rfl, rfl⟩ := ih r' x x' (fun d hd => h1 d (List.mem_cons_of_mem _ hd))
        (fun d hd => h' d (List.mem_cons_of_mem _ hd)) h
      exact ⟨rfl, rfl⟩

theorem trim_after_newline_aux (a rest rest' : Str)
    (ha : ∀ c ∈ a, isWhiteSpace c = true) (h : '\n' :: rest = a ++ '\n' :: rest') :
    trim rest = trim rest' := by
  cases a with
  | nil =>
    simp only [List.nil_append, List.cons.injEq, true_and] at h
    rw [h]
  | cons c a =>
    simp only [List.cons_append, List.cons.injEq] at h
    obtain ⟨rfl, rfl⟩ := h
    rw [trim_skip_space a _ (fun d hd => ha d (List.mem_cons_of_mem _ hd))]
    exact trim_skip_space ['\n'] rest' (by simp; rfl)

theorem trim_after_newline (ws ws' rest rest' : Str)
    (hws : ∀ c ∈ ws, isWhiteSpace c = true) (hws' : ∀ c ∈ ws', isWhiteSpace c = true)
    (h : ws ++ '\n' :: rest = ws' ++ '\n' :: rest') : trim rest = trim rest' := by
  rcases List.append_eq_append_iff.1 h with ⟨a, rfl, h2⟩ | ⟨a, rfl, h2⟩
  · exact trim_after_newline_aux a rest rest'
      (fun c hc => hws' c (List.mem_append_right _ hc)) h2
  · exact (trim_after_newline_aux a rest' rest
      (fun c hc => hws c (List.mem_append_right _ hc)) h2).symm

theorem strMatch_roleRe_isSome_iff (t : Str) :
    (strMatch t roleRe).isSome = true ↔ StartsWithRoleLine t := by
  rw [strMatch_roleRe]
  constructor
  · intro h
    obtain ⟨chunks, hc⟩ := Option.isSome_iff_exists.1 h
    obtain ⟨role, ws, rest, _, hs, _, hne, hrole, hws⟩ := roleRe_sound hc
    exact ⟨role, ws, rest, hne, hrole, hws, hs⟩
  · rintro ⟨role, ws, rest, hne, hrole, hws, rfl⟩
    exact roleRe_complete hne hrole hws

theorem decodeLoop_cons_blank (b : Str) (bs : List Str) (acc : List Message)
    (h : trim b = []) : decodeLoop (b :: bs) acc = decodeLoop bs acc := by
  simp [decodeLoop, h]

theorem decodeLoop_cons_bad (b : Str) (bs : List Str) (acc : List Message)
    (h : trim b ≠ []) (hbad : ¬ StartsWithRoleLine (trim b)) :
    decodeLoop (b :: bs) acc = .error formatError := by
  have : strMatch (trim b) roleRe = none := by
    cases hm : strMatch (trim b) roleRe with
    | none => rfl
    | some m => exact absurd ((strMatch_roleRe_isSome_iff _).1 (by simp [hm])) hbad
  simp [decodeLoop, h, this]

theorem decodeLoop_cons_role (b : Str) (bs : List Str) (acc : List Message)
    (role ws rest : Str) (hne : role ≠ []) (hrole : ∀ c ∈ role, isWordChar c = true)
    (hws : ∀ c ∈ ws, isWhiteSpace c = true)
    (hb : trim b = role ++ ':' :: (ws ++ '\n' :: rest)) :
    decodeLoop (b :: bs) acc = decodeLoop bs (acc ++ [⟨role, trim rest⟩]) := by
  have hsome := (strMatch_roleRe_isSome_iff (trim b)).2 ⟨role, ws, rest, hne, hrole, hws, hb⟩
  obtain ⟨chunks, hc⟩ := Option.isSome_iff_exists.1 hsome
  have hc' := hc
  rw [strMatch_roleRe] at hc'
  obtain ⟨role', ws', rest', rfl, hs, _, hne', hrole', hws'⟩ := roleRe_sound hc'
  rw [hb] at hs
  obtain ⟨rfl, hx⟩ := role_prefix_unique _ _ _ _ hrole hrole' hs
  have htrim := trim_after_newline _ _ _ _ hws hws' hx
  have hbne : trim b ≠ [] := by rw [hb]; cases role <;> simp
  have hdrop : (trim b).drop ([[], role, [':'], ws', ['\n']] : List Str).flatten.length = rest' := by
    rw [hb, hx]
    have : role ++ ':' :: (ws' ++ '\n' :: rest') = (role ++ ':' :: (ws' ++ ['\n'])) ++ rest' := by
      simp
    rw [this]
    have hl : ([[], role, [':'], ws', ['\n']] : List Str).flatten.length =
        (role ++ ':' :: (ws' ++ ['\n'])).length := by simp
    rw [hl, List.drop_left]
  simp only [decodeLoop, hbne, if_false, hc]
  rw [hdrop]
  simp [hne, htrim]

/-! ### Failure and shape of decoding -/

theorem decodeLoop_error_iff (bs : List Str) : ∀ (acc : List Message),
    (∃ e, decodeLoop bs acc = .error e) ↔
      ∃ b ∈ bs, trim b ≠ [] ∧ ¬ StartsWithRoleLine (trim b) := by
  induction bs with
  | nil => intro acc; simp [decodeLoop]
  | cons b bs ih =>
    intro acc
    by_cases h0 : trim b = []
    · rw [decodeLoop_cons_blank b bs acc h0, ih]
      simp [h0]
    · by_cases hr : StartsWithRoleLine (trim b)
      · obtain ⟨role, ws, rest, hne, hrole, hws, hb⟩ := hr
        rw [decodeLoop_cons_role b bs acc role ws rest hne hrole hws hb, ih]
        have : StartsWithRoleLine (trim b) := ⟨role, ws, rest, hne, hrole, hws, hb⟩
        simp [this]
      · rw [decodeLoop_cons_bad b bs acc h0 hr]
        simp only [Except.error.injEq, exists_eq', List.mem_cons, exists_eq_or_imp, true_iff]
        exact Or.inl ⟨h0, hr⟩

theorem decodeLoop_error_msg (bs : List Str) : ∀ (acc : List Message) (e : String),
    decodeLoop bs acc = .error e → e = formatError := by
  induction bs with
  | nil => intro acc e h; simp [decodeLoop] at h
  | cons b bs ih =>
    intro acc e h
    by_cases h0 : trim b = []
    · rw [decodeLoop_cons_blank b bs acc h0] at h
      exact ih _ _ h
    · by_cases hr : StartsWithRoleLine (trim b)
      · obtain ⟨role, ws, rest, hne, hrole, hws, hb⟩ := hr
        rw [decodeLoop_cons_role b bs acc role ws rest hne hrole hws hb] at h
        exact ih _ _ h
      · rw [decodeLoop_cons_bad b bs acc h0 hr] at h
        simp only [Except.error.injEq] at h
        exact h.symm

theorem trim_rest_wellShaped (t role ws rest : Str) (ht : noTrailingSpace t = true)
    (h : t = role ++ ':' :: (ws ++ '\n' :: rest)) : trim rest ≠ [] := by
  intro h0
  rw [trim_eq_nil_iff] at h0
  have hlast : ∃ c, t.getLast? = some c ∧ isWhiteSpace c = true := by
    rcases List.eq_nil_or_concat rest with rfl | ⟨r, c, hrc⟩
    · refine ⟨'\n', ?_, rfl⟩
      rw [h]
      have : role ++ ':' :: (ws ++ ['\n']) = (role ++ ':' :: ws) ++ ['\n'] := by simp
      rw [this, List.getLast?_concat]
    · rw [List.concat_eq_append] at hrc
      subst hrc
      refine ⟨c, ?_, h0 c (by simp)⟩
      rw [h]
      have : role ++ ':' :: (ws ++ '\n' :: (r ++ [c])) = (role ++ ':' :: (ws ++ '\n' :: r)) ++ [c] := by
        simp
      rw [this, List.getLast?_concat]
  obtain ⟨c, hc, hw⟩ := hlast
  simp [noTrailingSpace, hc, hw] at ht

theorem decodeLoop_wellShaped (bs : List Str) : ∀ (acc l : List Message),
    decodeLoop bs acc = .ok l → (∀ m ∈ acc, WellShaped m) → ∀ m ∈ l, WellShaped m := by
  induction bs with
  | nil =>
    intro acc l h hacc
    simp only [decodeLoop, Except.ok.injEq] at h
    subst h
    exact hacc
  | cons b bs ih =>
    intro acc l h hacc
    by_cases h0 : trim b = []
    · rw [decodeLoop_cons_blank b bs acc h0] at h
      exact ih _ _ h hacc
    · by_cases hr : StartsWithRoleLine (trim b)
      · obtain ⟨role, ws, rest, hne, hrole, hws, hb⟩ := hr
        rw [decodeLoop_cons_role b bs acc role ws rest hne hrole hws hb] at h
        refine ih _ _ h ?_
        intro m hm
        rcases List.mem_append.1 hm with hm | hm
        · exact hacc m hm
        · simp only [List.mem_singleton] at hm
          subst hm
          exact ⟨hne, hrole, trim_rest_wellShaped _ _ _ _ (noTrailingSpace_trim b) hb,
            noLeadingSpace_trim _, noTrailingSpace_trim _⟩
      · rw [decodeLoop_cons_bad b bs acc h0 hr] at h
        cases h

/-- C3. `fromReadableFormat` throws exactly when, after trimming the input and
splitting it at the separator expression, some block that is not made of white
space only does not start, once trimmed, with word characters, a colon,
optional white space and a newline.  The error is the format error, no message
list comes back with it, and valid blocks before the bad one do not change
that. -/
theorem fromReadableFormat_error_iff (s : Str) :
    ((∃ e, fromReadableFormat s = .error e) ↔
      ∃ block ∈ split (trim s) sepRe, trim block ≠ [] ∧ ¬ StartsWithRoleLine (trim block)) ∧
    (∀ e, fromReadableFormat s = .error e →
      e = formatError ∧ ∀ chat : List Message, fromReadableFormat s ≠ .ok chat) ∧
    fromReadableFormat "notarole without colon".toList = .error formatError ∧
    fromReadableFormat "user:\nhi\n-----\nnotarole without colon".toList =
      .error formatError := by
  refine ⟨decodeLoop_error_iff _ _, ?_, rfl, rfl⟩
  intro e h
  refine ⟨decodeLoop_error_msg _ _ _ h, ?_⟩
  intro chat hc
  rw [h] at hc
  cases hc

/-- C10. Every message of a successful decoding has a role that is a non-empty
run of word characters and a content that is non-empty with no white space at
either end; a block that is only `role:` makes decoding fail. -/
theorem fromReadableFormat_wellShaped (s : Str) (chat : List Message)
    (h : fromReadableFormat s = .ok chat) :
    (∀ m ∈ chat, WellShaped m) ∧
      fromReadableFormat "role:".toList = .error formatError ∧
      fromReadableFormat "role:\n".toList = .error formatError :=
  ⟨decodeLoop_wellShaped _ _ _ h (by simp), rfl, rfl⟩

theorem fromReadableFormat_wellShaped_witness :
    fromReadableFormat "user:\n  hi  \n-----\nsystem:\nA".toList =
        .ok [⟨"user".toList, "hi".toList⟩, ⟨"system".toList, "A".toList⟩] ∧
      (∀ m ∈ [(⟨"user".toList, "hi".toList⟩ : Message), ⟨"system".toList, "A".toList⟩],
        WellShaped m) :=
  ⟨rfl, (fromReadableFormat_wellShaped "user:\n  hi  \n-----\nsystem:\nA".toList _ rfl).1⟩

/-! ### Where the separator expression matches -/

theorem lastOr_of_ne_nil (p q : Option Char) (b : Str) (h : b ≠ []) :
    lastOr p b = lastOr q b := by
  cases b with
  | nil => exact absurd rfl h
  | cons c b => rw [lastOr_cons, lastOr_cons]

theorem prefix_of_run {P : Char → Bool} (ds b R R' : Str) (x : Char)
    (hds : ∀ c ∈ ds, P c = true) (hx : P x = false) (h : b ++ x :: R = ds ++ R') :
    ∃ b', b = ds ++ b' ∧ R' = b' ++ x :: R := by
  rcases List.append_eq_append_iff.1 h with ⟨a, rfl, h2⟩ | ⟨c, rfl, h2⟩
  · cases a with
    | nil => exact ⟨[], by simp, by simpa using h2.symm⟩
    | cons y a =>
      simp only [List.cons_append, List.cons.injEq] at h2
      have := hds y (by simp)
      rw [← h2.1, hx] at this
      cases this
  · exact ⟨c, rfl, h2⟩

theorem regExpExec_eq_none {nodes : List Node} (s : Str) : ∀ (prev : Option Char),
    regExpExec nodes prev s = none →
    ∀ b1 b2, s = b1 ++ b2 → matchNodes nodes (lastOr prev b1) b2 = none := by
  induction s with
  | nil =>
    intro prev h b1 b2 hs
    obtain ⟨rfl, rfl⟩ := List.append_eq_nil.1 hs.symm
    simpa [regExpExec] using h
  | cons c s ih =>
    intro prev h b1 b2 hs
    simp only [regExpExec] at h
    cases hm : matchNodes nodes prev (c :: s) with
    | some r => simp [hm] at h
    | none =>
      simp only [hm] at h
      cases b1 with
      | nil =>
        simp only [List.nil_append] at hs
        subst hs
        exact hm
      | cons d b1 =>
        simp only [List.cons_append, List.cons.injEq] at hs
        obtain ⟨rfl, rfl⟩ := hs
        rw [lastOr_cons]
        exact ih _ h _ _ rfl

theorem sepRe_none_of_not_dash (prev : Option Char) (c : Char) (s : Str)
    (h : isDash c = false) : matchNodes sepRe prev (c :: s) = none := by
  cases hm : matchNodes sepRe prev (c :: s) with
  | none => rfl
  | some chunks =>
    obtain ⟨ds, ws, rest, _, hs, _, hlen, hds, _, _⟩ := sepRe_sound hm
    cases ds with
    | nil => simp at hlen
    | cons d ds =>
      simp only [List.cons_append, List.cons.injEq] at hs
      have := hds d (by simp)
      rw [← hs.1, h] at this
      cases this

theorem noMatchIn_of_no_dash (prev : Option Char) (b after : Str)
    (h : ∀ c ∈ b, isDash c = false) : NoMatchIn sepRe prev b after := by
  intro b1 b2 hb hne
  cases b2 with
  | nil => exact absurd rfl hne
  | cons c b2 =>
    exact sepRe_none_of_not_dash _ _ _ (h c (by simp [hb]))

theorem noMatchIn_content (prev : Option Char) (content X : Str) (d : Char)
    (hd : isDash d = true) (h : regExpTest sepRe content = false) :
    NoMatchIn sepRe prev content ('\n' :: d :: X) := by
  have hnone : regExpExec sepRe none content = none := by
    simpa [regExpTest] using h
  intro b1 b2 hb hne
  have hstand := regExpExec_eq_none content none hnone b1 b2 hb
  cases hm : matchNodes sepRe (lastOr prev b1) (b2 ++ '\n' :: d :: X) with
  | none => rfl
  | some chunks =>
    exfalso
    obtain ⟨ds, ws, rest, _, hs, hstart, hlen, hds, hws, hend⟩ := sepRe_sound hm
    have hstart' : atStart true (lastOr none b1) = true := by
      by_cases hb1 : b1 = []
      · subst hb1; rfl
      · rw [lastOr_of_ne_nil none prev b1 hb1]; exact hstart
    have hnl : isDash '\n' = false := rfl
    rw [List.append_assoc] at hs
    obtain ⟨b2', rfl, h2⟩ := prefix_of_run ds b2 _ _ '\n' hds hnl hs
    have hsome : (matchNodes sepRe (lastOr none b1) (ds ++ b2')).isSome = true := by
      rcases List.append_eq_append_iff.1 h2 with ⟨a, rfl, h3⟩ | ⟨a, rfl, h3⟩
      · -- the white space ends inside the content
        have := sepRe_complete _ ds ws a hstart' hlen hds hws (by
          cases a with
          | nil => rfl
          | cons y a =>
            rw [h3] at hend
            simpa [atEnd] using hend)
        simpa using this
      · cases a with
        | nil =>
          have := sepRe_complete _ ds _ [] hstart' hlen hds hws rfl
          simpa using this
        | cons y a =>
          exfalso
          simp only [List.cons_append, List.cons.injEq] at h3
          obtain ⟨rfl, h3⟩ := h3
          cases a with
          | nil =>
            simp only [List.nil_append] at h3
            rw [← h3] at hend
            simp [atEnd, not_isLineTerminator_of_isDash hd] at hend
          | cons z a =>
            simp only [List.cons_append, List.cons.injEq] at h3
            have := hws z (by simp)
            rw [← h3.1, not_isWhiteSpace_of_isDash hd] at this
            cases this
    rw [hstand] at hsome
    cases hsome

theorem sepRe_match_dashes (prev : Option Char) (n : Nat) (T : Str) (hn : 5 ≤ n)
    (hprev : atStart true prev = true)
    (hT : T = [] ∨ ∃ r T', T = '\n' :: r :: T' ∧ isWhiteSpace r = false) :
    ∃ chunks, matchNodes sepRe prev (List.replicate n '-' ++ T) = some chunks ∧
      chunks.flatten = List.replicate n '-' := by
  have hrep : ∀ c ∈ List.replicate n '-', isDash c = true := by
    intro c hc
    rw [List.eq_of_mem_replicate hc]; rfl
  have hsome : (matchNodes sepRe prev (List.replicate n '-' ++ [] ++ T)).isSome = true := by
    apply sepRe_complete _ _ _ _ hprev (by simpa using hn) hrep (by simp)
    rcases hT with rfl | ⟨r, T', rfl, _⟩ <;> rfl
  rw [List.append_nil] at hsome
  obtain ⟨chunks, hc⟩ := Option.isSome_iff_exists.1 hsome
  refine ⟨chunks, hc, ?_⟩
  obtain ⟨ds, ws, rest, hflat, hs, _, _, hds, hws, hend⟩ := sepRe_sound hc
  rw [hflat]
  have hws_nil : ∀ y l, ws = y :: l → isDash y = true → False := by
    intro y l hy hdy
    have := hws y (by simp [hy])
    rw [not_isWhiteSpace_of_isDash hdy] at this
    cases this
  have hrest_nil : ∀ y l, rest = y :: l → isDash y = true → False := by
    intro y l hy hdy
    rw [hy] at hend
    simp [atEnd, not_isLineTerminator_of_isDash hdy] at hend
  rcases hT with rfl | ⟨r, T', rfl, hr⟩
  · rw [List.append_nil, List.append_assoc] at hs
    have hmem : ∀ y ∈ ws ++ rest, isDash y = true := by
      intro y hy
      exact hrep y (by rw [hs]; exact List.mem_append_right _ hy)
    cases ws with
    | cons y l => exact (hws_nil y l rfl (hmem y (by simp))).elim
    | nil =>
      cases rest with
      | cons y l => exact (hrest_nil y l rfl (hmem y (by simp))).elim
      | nil => simpa using hs.symm
  · rw [List.append_assoc] at hs
    obtain ⟨D', hD, h2⟩ := prefix_of_run ds _ _ _ '\n' hds rfl hs
    cases D' with
    | cons y D'' =>
      exfalso
      have hy : isDash y = true := hrep y (by rw [hD]; simp)
      cases ws with
      | cons z l =>
        simp only [List.cons_append, List.cons.injEq] at h2
        exact hws_nil z l rfl (h2.1 ▸ hy)
      | nil =>
        simp only [List.nil_append, List.cons_append] at h2
        exact hrest_nil y _ h2 hy
    | nil =>
      simp only [List.append_nil] at hD
      simp only [List.nil_append] at h2
      cases ws with
      | nil => simp [hD]
      | cons z l =>
        exfalso
        simp only [List.cons_append, List.cons.injEq] at h2
        obtain ⟨rfl, h2⟩ := h2
        cases l with
        | nil =>
          simp only [List.nil_append] at h2
          rw [h2] at hend
          have : isLineTerminator r = true := by simpa [atEnd] using hend
          rw [isWhiteSpace_of_isLineTerminator this] at hr
          cases hr
        | cons w l =>
          simp only [List.cons_append, List.cons.injEq] at h2
          have := hws w (by simp)
          rw [h2.1, hr] at this
          cases this

/-! ### Splitting and decoding an encoded chat -/

theorem renderItem_eq_body (x : Message) :
    renderItem x = blockBody x ++ List.replicate 20 '-' := by
  rw [renderItem_eq]; simp [blockBody]

theorem isDash_false_of_wordChars (role : Str) (h : ∀ c ∈ role, isWordChar c = true) :
    ∀ c ∈ role, isDash c = false :=
  fun c hc => not_isDash_of_isWordChar (h c hc)

theorem noMatchIn_block (prev : Option Char) (pre : Str) (x : Message) (T : Str)
    (hpre : ∀ c ∈ pre, isDash c = false) (hrole : ∀ c ∈ x.role, isWordChar c = true)
    (hsep : regExpTest sepRe x.content = false) :
    NoMatchIn sepRe prev (pre ++ blockBody x) (List.replicate 20 '-' ++ T) := by
  have e : pre ++ blockBody x = (pre ++ x.role ++ [':', '\n']) ++ (x.content ++ ['\n']) := by
    simp [blockBody]
  rw [e]
  apply NoMatchIn.append
  · apply noMatchIn_of_no_dash
    intro c hc
    simp only [List.mem_append, List.mem_cons, List.mem_singleton, List.not_mem_nil,
      or_false] at hc
    rcases hc with (hc | hc) | rfl | rfl
    · exact hpre c hc
    · exact isDash_false_of_wordChars _ hrole c hc
    · rfl
    · rfl
  · apply NoMatchIn.append
    · exact noMatchIn_content _ _ (List.replicate 19 '-' ++ T) '-' rfl hsep
    · apply noMatchIn_of_no_dash
      intro c hc
      simp only [List.mem_singleton] at hc
      subst hc
      rfl

theorem lastOr_block (prev : Option Char) (pre : Str) (x : Message) :
    lastOr prev (pre ++ blockBody x) = some '\n' := by
  have : pre ++ blockBody x = (pre ++ x.role ++ ':' :: '\n' :: x.content) ++ ['\n'] := by
    simp [blockBody]
  rw [this, lastOr_append]
  rfl

theorem toReadableFormat_cons_shape (x : Message) (m : List Message)
    (hne : ∀ y ∈ m, y.role ≠ []) (hw : ∀ y ∈ m, ∀ c ∈ y.role, isWordChar c = true) :
    ∃ T, toReadableFormat (.array (x :: m)) = blockBody x ++ (List.replicate 20 '-' ++ T) ∧
      (T = [] ∨ ∃ r T', T = '\n' :: r :: T' ∧ isWhiteSpace r = false) ∧
      (m = [] → T = []) ∧
      (∀ y m', m = y :: m' → T = '\n' :: toReadableFormat (.array (y :: m'))) := by
  cases m with
  | nil =>
    exact ⟨[], by simp [toReadableFormat_single, renderItem_eq_body], Or.inl rfl,
      fun _ => rfl, fun _ _ h => by cases h⟩
  | cons y m' =>
    refine ⟨'\n' :: toReadableFormat (.array (y :: m')), ?_, Or.inr ?_, ?_, ?_⟩
    · rw [toReadableFormat_cons_cons, renderItem_eq_body]; simp
    · have hy := hne y (by simp)
      cases hr : y.role with
      | nil => exact absurd hr hy
      | cons r rs =>
        refine ⟨r, rs ++ ':' :: '\n' :: (y.content ++ '\n' :: List.replicate 20 '-') ++
          (match m' with
            | [] => []
            | z :: m'' => '\n' :: toReadableFormat (.array (z :: m''))), ?_, ?_⟩
        · cases m' with
          | nil => simp [toReadableFormat_single, renderItem_eq, hr]
          | cons z m'' => simp [toReadableFormat_cons_cons, renderItem_eq, hr]
        · exact not_isWhiteSpace_of_isWordChar (hw y (by simp) r (by simp [hr]))
    · intro h
      cases h
    · intro y' m'' h
      cases h
      rfl

theorem splitFrom_encoded (m : List Message) : ∀ (x : Message) (prev : Option Char) (pre : Str),
    (∀ c ∈ pre, isDash c = false) →
    (∀ y ∈ x :: m, y.role ≠ [] ∧ (∀ c ∈ y.role, isWordChar c = true) ∧
      regExpTest sepRe y.content = false) →
    splitFrom sepRe prev [] (pre ++ toReadableFormat (.array (x :: m))) =
      (pre ++ blockBody x) :: (m.map (fun y => '\n' :: blockBody y) ++ [[]]) := by
  induction m with
  | nil =>
    intro x prev pre hpre hx
    obtain ⟨_, hrole, hsep⟩ := hx x (by simp)
    rw [toReadableFormat_single, renderItem_eq_body, ← List.append_assoc]
    have hskip := splitFrom_skip (pre ++ blockBody x) prev [] (List.replicate 20 '-')
      (by simpa using noMatchIn_block prev pre x [] hpre hrole hsep)
    rw [hskip, lastOr_block]
    obtain ⟨chunks, hc, hflat⟩ := sepRe_match_dashes (some '\n') 20 [] (by decide) rfl (Or.inl rfl)
    rw [List.append_nil] at hc
    have hstep := @splitFrom_cons_some sepRe (some '\n') '-' (List.replicate 19 '-') chunks
      ((pre ++ blockBody x).reverse ++ []) hc (by rw [hflat]; simp)
    have e20 : List.replicate 20 '-' = '-' :: List.replicate 19 '-' := rfl
    rw [e20, hstep, hflat]
    simp [splitFrom_nil]
  | cons y m ih =>
    intro x prev pre hpre hx
    obtain ⟨_, hrole, hsep⟩ := hx x (by simp)
    obtain ⟨T, hT, hshape, _, hcons⟩ := toReadableFormat_cons_shape x (y :: m)
      (fun z hz => (hx z (List.mem_cons_of_mem _ hz)).1)
      (fun z hz => (hx z (List.mem_cons_of_mem _ hz)).2.1)
    have hT' := hcons y m rfl
    rw [hT, ← List.append_assoc]
    have hskip := splitFrom_skip (pre ++ blockBody x) prev [] (List.replicate 20 '-' ++ T)
      (noMatchIn_block prev pre x T hpre hrole hsep)
    rw [hskip, lastOr_block]
    obtain ⟨chunks, hc, hflat⟩ := sepRe_match_dashes (some '\n') 20 T (by decide) rfl hshape
    have e20 : List.replicate 20 '-' ++ T = '-' :: (List.replicate 19 '-' ++ T) := rfl
    rw [e20] at hc
    have hstep := splitFrom_cons_some ((pre ++ blockBody x).reverse ++ []) hc
      (by rw [hflat]; simp)
    rw [e20, hstep, hflat, ← e20]
    have hdrop : List.drop (List.replicate 20 '-').length (List.replicate 20 '-' ++ T) = T :=
      List.drop_left _ _
    rw [hdrop, hT']
    have hrec := ih y (lastOr (some '\n')
        (List.take (List.replicate 20 '-').length (List.replicate 20 '-' ++ T))) ['\n']
      (by simp; rfl) (fun z hz => hx z (List.mem_cons_of_mem _ hz))
    rw [List.singleton_append] at hrec
    rw [hT'] at hrec
    rw [hrec]
    simp

theorem trim_block (pre : Str) (x : Message) (hpre : ∀ c ∈ pre, isWhiteSpace c = true)
    (hx : WellShaped x) :
    trim (pre ++ blockBody x) = x.role ++ ':' :: ([] ++ '\n' :: x.content) := by
  obtain ⟨hne, hrole, hcne, hlead, htrail⟩ := hx
  have e : pre ++ blockBody x = pre ++ (x.role ++ ':' :: '\n' :: x.content) ++ ['\n'] := by
    simp [blockBody]
  rw [e, List.nil_append]
  apply trim_sandwich _ _ _ hpre (by simp; rfl)
  · cases hr : x.role with
    | nil => exact absurd hr hne
    | cons r rs =>
      have := not_isWhiteSpace_of_isWordChar (hrole r (by simp [hr]))
      simp [noLeadingSpace, this]
  · obtain ⟨l, hl⟩ : ∃ l, x.content.getLast? = some l := by
      cases h : x.content.getLast? with
      | none => exact absurd (List.getLast?_eq_none_iff.1 h) hcne
      | some l => exact ⟨l, rfl⟩
    have e2 : x.role ++ ':' :: '\n' :: x.content = (x.role ++ [':', '\n']) ++ x.content := by
      simp
    have hl' : (x.role ++ ':' :: '\n' :: x.content).getLast? = some l := by
      rw [e2, List.getLast?_append, hl]; rfl
    simp only [noTrailingSpace, hl] at htrail
    simp only [noTrailingSpace, hl']
    exact htrail

theorem decodeLoop_blocks (bs : List Str) (m : List Message)
    (h : List.Forall₂ (fun b x => WellShaped x ∧
      ∃ pre, (∀ c ∈ pre, isWhiteSpace c = true) ∧ b = pre ++ blockBody x) bs m) :
    ∀ acc, decodeLoop (bs ++ [[]]) acc = .ok (acc ++ m) := by
  induction h with
  | nil =>
    intro acc
    rw [List.nil_append, decodeLoop_cons_blank [] [] acc (by simp [trim])]
    simp [decodeLoop]
  | @cons b x bs m hbx _ ih =>
    intro acc
    obtain ⟨hx, pre, hpre, rfl⟩ := hbx
    rw [List.cons_append, decodeLoop_cons_role _ _ acc x.role [] x.content hx.1 hx.2.1
      (by simp) (trim_block pre x hpre hx), trim_of_trimmed _ hx.2.2.2.1 hx.2.2.2.2, ih]
    simp

theorem noLeadingSpace_encoded (x : Message) (m : List Message) (hx : WellShaped x) :
    noLeadingSpace (toReadableFormat (.array (x :: m))) = true := by
  obtain ⟨hne, hrole, _⟩ := hx
  cases hr : x.role with
  | nil => exact absurd hr hne
  | cons r rs =>
    have hw := not_isWhiteSpace_of_isWordChar (hrole r (by simp [hr]))
    cases m with
    | nil => simp [toReadableFormat_single, renderItem_eq, hr, noLeadingSpace, hw]
    | cons y m => simp [toReadableFormat_cons_cons, renderItem_eq, hr, noLeadingSpace, hw]

theorem noTrailingSpace_encoded (m : List Message) : ∀ (x : Message),
    noTrailingSpace (toReadableFormat (.array (x :: m))) = true := by
  induction m with
  | nil =>
    intro x
    have : toReadableFormat (.array [x]) =
        (x.role ++ ':' :: '\n' :: (x.content ++ '\n' :: List.replicate 19 '-')) ++ ['-'] := by
      rw [toReadableFormat_single, renderItem_eq]
      simp [List.replicate_succ']
    rw [this]
    simp only [noTrailingSpace, List.getLast?_concat]
    rfl
  | cons y m ih =>
    intro x
    have hy := ih y
    rw [toReadableFormat_cons_cons]
    cases hl : (toReadableFormat (.array (y :: m))).getLast? with
    | none =>
      have := List.getLast?_eq_none_iff.1 hl
      cases m with
      | nil => simp [toReadableFormat_single, renderItem_eq] at this
      | cons z m => simp [toReadableFormat_cons_cons, renderItem_eq] at this
    | some l =>
      have e : renderItem x ++ '\n' :: toReadableFormat (.array (y :: m)) =
          (renderItem x ++ ['\n']) ++ toReadableFormat (.array (y :: m)) := by simp
      have hl' : (renderItem x ++ '\n' :: toReadableFormat (.array (y :: m))).getLast? =
          some l := by
        rw [e, List.getLast?_append, hl]; rfl
      simp only [noTrailingSpace, hl] at hy
      simp only [noTrailingSpace, hl']
      exact hy

/-- The round trip under the hypothesis that the separator expression matches
nowhere in a content. -/
theorem roundTrip_of_no_match (m : List Message)
    (h : ∀ x ∈ m, WellShaped x ∧ regExpTest sepRe x.content = false) :
    fromReadableFormat (toReadableFormat (.array m)) = .ok m := by
  cases m with
  | nil => rfl
  | cons x m =>
    have hx := (h x (by simp)).1
    have hne : toReadableFormat (.array (x :: m)) ≠ [] := by
      obtain ⟨T, hT, _⟩ := toReadableFormat_cons_shape x m
        (fun y hy => (h y (List.mem_cons_of_mem _ hy)).1.1)
        (fun y hy => (h y (List.mem_cons_of_mem _ hy)).1.2.1)
      rw [hT]
      simp [blockBody]
    rw [fromReadableFormat, trim_of_trimmed _ (noLeadingSpace_encoded x m hx)
      (noTrailingSpace_encoded m x), split_eq_splitFrom hne]
    have hs := splitFrom_encoded m x none [] (by simp)
      (fun y hy => ⟨(h y hy).1.1, (h y hy).1.2.1, (h y hy).2⟩)
    rw [List.nil_append] at hs
    rw [hs]
    have hb : List.Forall₂ (fun b x => WellShaped x ∧
        ∃ pre, (∀ c ∈ pre, isWhiteSpace c = true) ∧ b = pre ++ blockBody x)
        (([] ++ blockBody x) :: m.map (fun y => '\n' :: blockBody y)) (x :: m) := by
      refine List.Forall₂.cons ⟨hx, [], by simp, rfl⟩ ?_
      have : ∀ (l : List Message), (∀ y ∈ l, WellShaped y) →
          List.Forall₂ (fun b x => WellShaped x ∧
            ∃ pre, (∀ c ∈ pre, isWhiteSpace c = true) ∧ b = pre ++ blockBody x)
            (l.map (fun y => '\n' :: blockBody y)) l := by
        intro l
        induction l with
        | nil => intro _; exact List.Forall₂.nil
        | cons y l ih =>
          intro hl
          exact List.Forall₂.cons ⟨hl y (by simp), ['\n'], by simp; rfl, rfl⟩
            (ih (fun z hz => hl z (List.mem_cons_of_mem _ hz)))
      exact this m (fun y hy => (h y (List.mem_cons_of_mem _ hy)).1)
    have := decodeLoop_blocks _ _ hb []
    simpa using this

/-! ### Separator lines and matches of the separator expression -/

theorem regExpExec_none_of_forall {nodes : List Node} (s : Str) : ∀ (prev : Option Char),
    (∀ b1 b2, s = b1 ++ b2 → matchNodes nodes (lastOr prev b1) b2 = none) →
    regExpExec nodes prev s = none := by
  induction s with
  | nil =>
    intro prev h
    simpa [regExpExec, lastOr_nil] using h [] [] rfl
  | cons c s ih =>
    intro prev h
    have h0 := h [] (c :: s) rfl
    rw [lastOr_nil] at h0
    simp only [regExpExec, h0]
    apply ih
    intro b1 b2 hb
    have := h (c :: b1) b2 (by simp [hb])
    rwa [lastOr_cons] at this

theorem lines_append_terminator (A X : Str) (lt : Char) (hlt : isLineTerminator lt = true) :
    ∃ S, S ≠ [] ∧ lines (A ++ lt :: X) = S ++ lines X := by
  induction A with
  | nil =>
    refine ⟨[[]], by simp, ?_⟩
    simp [lines, List.splitOnP_cons, hlt]
  | cons a A ih =>
    obtain ⟨S, hS, hl⟩ := ih
    simp only [lines] at hl ⊢
    rw [List.cons_append, List.splitOnP_cons, hl]
    split
    · exact ⟨[] :: S, by simp, by simp⟩
    · cases S with
      | nil => exact absurd rfl hS
      | cons s0 S => exact ⟨(a :: s0) :: S, by simp, by simp [List.modifyHead]⟩

theorem mem_lines_of_atStart (b1 X l : Str) (h : atStart true (lastOr none b1) = true)
    (hl : l ∈ lines X) : l ∈ lines (b1 ++ X) := by
  rcases List.eq_nil_or_concat b1 with rfl | ⟨A, lt, hb⟩
  · simpa using hl
  · rw [List.concat_eq_append] at hb
    subst hb
    have hlt : isLineTerminator lt = true := by
      rw [lastOr_append] at h
      simpa [lastOr, atStart] using h
    obtain ⟨S, _, hS⟩ := lines_append_terminator A X lt hlt
    rw [List.append_assoc, List.singleton_append, hS]
    exact List.mem_append_right _ hl

theorem first_line_mem (l tail : Str) (hl : ∀ c ∈ l, isLineTerminator c = false)
    (ht : atEnd true tail = true) : l ∈ lines (l ++ tail) := by
  cases tail with
  | nil =>
    rw [List.append_nil, lines, List.splitOnP_eq_single]
    · simp
    · intro c hc; simp [hl c hc]
  | cons t tail =>
    have hlt : isLineTerminator t = true := by simpa [atEnd] using ht
    rw [lines, List.splitOnP_first _ _ (fun c hc => by simp [hl c hc]) t hlt]
    simp

theorem isSeparatorLine_of_parts (ds w : Str) (hlen : 5 ≤ ds.length)
    (hds : ∀ c ∈ ds, isDash c = true) (hw : ∀ c ∈ w, isWhiteSpace c = true) :
    isSeparatorLine (ds ++ w) = true := by
  have hw0 : w.takeWhile isDash = [] := by
    cases w with
    | nil => rfl
    | cons c w =>
      have := not_isDash_of_isWhiteSpace (hw c (by simp))
      simp [List.takeWhile_cons, this]
  have hw1 : w.dropWhile isDash = w := by
    cases w with
    | nil => rfl
    | cons c w =>
      have := not_isDash_of_isWhiteSpace (hw c (by simp))
      simp [List.dropWhile_cons, this]
  simp only [isSeparatorLine, List.takeWhile_append_of_pos hds, hw0, List.append_nil,
    List.dropWhile_append_of_pos hds, hw1, Bool.and_eq_true, decide_eq_true_eq,
    List.all_eq_true]
  exact ⟨hlen, hw⟩

theorem regExpTest_false_of_lines (content : Str)
    (h : ∀ l ∈ lines content, isSeparatorLine l = false) :
    regExpTest sepRe content = false := by
  have : regExpExec sepRe none content = none := by
    apply regExpExec_none_of_forall
    intro b1 b2 hb
    cases hm : matchNodes sepRe (lastOr none b1) b2 with
    | none => rfl
    | some chunks =>
      exfalso
      obtain ⟨ds, ws, rest, _, hs, hstart, hlen, hds, hws, hend⟩ := sepRe_sound hm
      -- the line that starts at the match: the dashes and the white space up to the
      -- first line terminator
      let w1 := ws.takeWhile (fun c => !isLineTerminator c)
      let w2 := ws.dropWhile (fun c => !isLineTerminator c)
      have hw : w1 ++ w2 = ws := List.takeWhile_append_dropWhile _ _
      have hw1 : ∀ c ∈ w1, isLineTerminator c = false := by
        intro c hc
        simpa using List.mem_takeWhile_imp hc
      have hw1s : ∀ c ∈ w1, isWhiteSpace c = true := fun c hc =>
        hws c (by rw [← hw]; exact List.mem_append_left _ hc)
      have htail : atEnd true (w2 ++ rest) = true := by
        cases hw2 : w2 with
        | nil => simpa using hend
        | cons c r =>
          have := List.head?_dropWhile_not (fun c => !isLineTerminator c) ws
          have e : List.dropWhile (fun c => !isLineTerminator c) ws = c :: r := hw2
          rw [e] at this
          simpa [atEnd] using this
      have hline : ∀ c ∈ ds ++ w1, isLineTerminator c = false := by
        intro c hc
        rcases List.mem_append.1 hc with hc | hc
        · exact not_isLineTerminator_of_isDash (hds c hc)
        · exact hw1 c hc
      have hmem : ds ++ w1 ∈ lines content := by
        rw [hb]
        apply mem_lines_of_atStart b1 b2 _ hstart
        have e : b2 = (ds ++ w1) ++ (w2 ++ rest) := by
          rw [hs, ← hw]; simp
        rw [e]
        exact first_line_mem _ _ hline htail
      have := h _ hmem
      rw [isSeparatorLine_of_parts ds w1 hlen hds hw1s] at this
      cases this
  simp [regExpTest, this]

/-! ### Round trip -/

/-- C9. Restricted round trip: when every role is a non-empty run of word
characters, every content is non-empty with no white space at either end, and
the separator expression matches nowhere in any content, decoding the encoding
gives the messages back. -/
theorem roundTrip_restricted (m : List Message)
    (h : ∀ x ∈ m, WellShaped x ∧ regExpTest sepRe x.content = false) :
    fromReadableFormat (toReadableFormat (.array m)) = .ok m :=
  roundTrip_of_no_match m h

theorem roundTrip_restricted_witness :
    (∀ x ∈ [(⟨"user".toList, "a ----- b".toList⟩ : Message)],
      WellShaped x ∧ regExpTest sepRe x.content = false) ∧
    fromReadableFormat (toReadableFormat (.array [⟨"user".toList, "a ----- b".toList⟩])) =
      .ok [⟨"user".toList, "a ----- b".toList⟩] :=
  have h : ∀ x ∈ [(⟨"user".toList, "a ----- b".toList⟩ : Message)],
      WellShaped x ∧ regExpTest sepRe x.content = false := by
    intro x hx
    simp only [List.mem_singleton] at hx
    subst hx
    exact ⟨⟨by decide, by decide, by decide, rfl, rfl⟩, rfl⟩
  ⟨h, roundTrip_restricted _ h⟩

/-- C1, as stated, fails.  Each of the four chats below has a word-character
role and no content line made solely of five or more `-`, and none survives
the round trip: an empty content makes decoding throw, a leading space is
lost, a trailing space is lost, and a content line of dashes followed by a
space is taken for a separator. -/
theorem roundTrip_counterexample :
    ((∀ x ∈ [(⟨"user".toList, []⟩ : Message)],
        x.role ≠ [] ∧ (∀ c ∈ x.role, isWordChar c = true) ∧
        ∀ l ∈ lines x.content, solelyDashes l = false) ∧
      fromReadableFormat (toReadableFormat (.array [⟨"user".toList, []⟩])) =
        .error formatError) ∧
    ((∀ x ∈ [(⟨"user".toList, " A".toList⟩ : Message)],
        x.role ≠ [] ∧ (∀ c ∈ x.role, isWordChar c = true) ∧
        ∀ l ∈ lines x.content, solelyDashes l = false) ∧
      fromReadableFormat (toReadableFormat (.array [⟨"user".toList, " A".toList⟩])) =
        .ok [⟨"user".toList, "A".toList⟩] ∧
      fromReadableFormat (toReadableFormat (.array [⟨"user".toList, " A".toList⟩])) ≠
        .ok [⟨"user".toList, " A".toList⟩]) ∧
    ((∀ x ∈ [(⟨"user".toList, "A ".toList⟩ : Message)],
        x.role ≠ [] ∧ (∀ c ∈ x.role, isWordChar c = true) ∧
        ∀ l ∈ lines x.content, solelyDashes l = false) ∧
      fromReadableFormat (toReadableFormat (.array [⟨"user".toList, "A ".toList⟩])) =
        .ok [⟨"user".toList, "A".toList⟩] ∧
      fromReadableFormat (toReadableFormat (.array [⟨"user".toList, "A ".toList⟩])) ≠
        .ok [⟨"user".toList, "A ".toList⟩]) ∧
    ((∀ x ∈ [(⟨"user".toList, "a\n----- \nb".toList⟩ : Message)],
        x.role ≠ [] ∧ (∀ c ∈ x.role, isWordChar c = true) ∧
        ∀ l ∈ lines x.content, solelyDashes l = false) ∧
      fromReadableFormat (toReadableFormat (.array [⟨"user".toList, "a\n----- \nb".toList⟩])) =
        .error formatError) := by
  have hyp : ∀ content : Str, (∀ l ∈ lines content, solelyDashes l = false) →
      ∀ x ∈ [(⟨"user".toList, content⟩ : Message)],
        x.role ≠ [] ∧ (∀ c ∈ x.role, isWordChar c = true) ∧
        ∀ l ∈ lines x.content, solelyDashes l = false := by
    intro content hc x hx
    simp only [List.mem_singleton] at hx
    subst hx
    exact ⟨by simp, by simp; decide, hc⟩
  have ne : ∀ a b : Str, a ≠ b →
      (Except.ok [(⟨"user".toList, a⟩ : Message)] : Except String (List Message)) ≠
        .ok [⟨"user".toList, b⟩] := by
    intro a b hab h
    simp only [Except.ok.injEq, List.cons.injEq, Message.mk.injEq, and_true, true_and] at h
    exact hab h
  refine ⟨⟨hyp _ (by decide), rfl⟩, ⟨hyp _ (by decide), rfl, ?_⟩, ⟨hyp _ (by decide), rfl, ?_⟩,
    ⟨hyp _ (by decide), rfl⟩⟩
  · have e : fromReadableFormat (toReadableFormat (.array [⟨"user".toList, " A".toList⟩])) =
        .ok [⟨"user".toList, "A".toList⟩] := rfl
    rw [e]
    exact ne _ _ (by decide)
  · have e : fromReadableFormat (toReadableFormat (.array [⟨"user".toList, "A ".toList⟩])) =
        .ok [⟨"user".toList, "A".toList⟩] := rfl
    rw [e]
    exact ne _ _ (by decide)

/-- C1, amended.  When every role is a non-empty run of word characters, every
content is non-empty with no white space at either end, and no line of any
content is five or more `-` optionally followed by white space, decoding the
encoding succeeds and gives the same messages in the same order. -/
theorem roundTrip_amended (m : List Message)
    (h : ∀ x ∈ m, WellShaped x ∧ ∀ l ∈ lines x.content, isSeparatorLine l = false) :
    fromReadableFormat (toReadableFormat (.array m)) = .ok m :=
  roundTrip_of_no_match m (fun x hx => ⟨(h x hx).1, regExpTest_false_of_lines _ (h x hx).2⟩)

theorem roundTrip_amended_witness :
    (∀ x ∈ [(⟨"system".toList, "A".toList⟩ : Message), ⟨"user".toList, "B\n---- -\n-----x".toList⟩],
      WellShaped x ∧ ∀ l ∈ lines x.content, isSeparatorLine l = false) ∧
    fromReadableFormat (toReadableFormat
        (.array [⟨"system".toList, "A".toList⟩, ⟨"user".toList, "B\n---- -\n-----x".toList⟩])) =
      .ok [⟨"system".toList, "A".toList⟩, ⟨"user".toList, "B\n---- -\n-----x".toList⟩] :=
  have h : ∀ x ∈ [(⟨"system".toList, "A".toList⟩ : Message),
      ⟨"user".toList, "B\n---- -\n-----x".toList⟩],
      WellShaped x ∧ ∀ l ∈ lines x.content, isSeparatorLine l = false := by
    intro x hx
    simp only [List.mem_cons, List.mem_singleton, List.not_mem_nil, or_false] at hx
    rcases hx with rfl | rfl
    · exact ⟨⟨by decide, by decide, by decide, rfl, rfl⟩, by decide⟩
    · exact ⟨⟨by decide, by decide, by decide, rfl, rfl⟩, by decide⟩
  ⟨h, roundTrip_amended _ h⟩

/-! ### Texts made of white space and separator lines -/

theorem Clean.suffix (a : Str) : ∀ (p : Option Char) (b : Str),
    Clean p (a ++ b) → Clean (lastOr p a) b := by
  induction a with
  | nil => intro p b h; exact h
  | cons c a ih =>
    intro p b h
    rw [lastOr_cons]
    exact ih _ _ h.2

theorem takeWhile_isDash_append_ws (x b : Str) (hb : ∀ c ∈ b, isWhiteSpace c = true) :
    (x ++ b).takeWhile isDash = x.takeWhile isDash := by
  induction x with
  | nil =>
    cases b with
    | nil => rfl
    | cons c b =>
      have := not_isDash_of_isWhiteSpace (hb c (by simp))
      simp [List.takeWhile_cons, this]
  | cons c x ih =>
    simp only [List.cons_append, List.takeWhile_cons, ih]

theorem Clean.dropEnd (a : Str) : ∀ (p : Option Char) (b : Str),
    (∀ c ∈ b, isWhiteSpace c = true) → Clean p (a ++ b) → Clean p a := by
  induction a with
  | nil => intro p b _ _; trivial
  | cons c a ih =>
    intro p b hb h
    refine ⟨?_, ih _ _ hb h.2⟩
    have h1 := h.1
    have e : c :: a.append b = (c :: a) ++ b := rfl
    rw [e, takeWhile_isDash_append_ws _ _ hb] at h1
    exact h1

theorem Clean.restart (p : Option Char) (s : Str) (h : Clean p s)
    (hp : prevIsDash p = false) : Clean none s := by
  cases s with
  | nil => trivial
  | cons c r =>
    refine ⟨?_, h.2⟩
    rcases h.1 with hw | ⟨hd, hpd | ⟨_, hrun⟩⟩
    · exact Or.inl hw
    · rw [hp] at hpd; cases hpd
    · exact Or.inr ⟨hd, Or.inr ⟨rfl, hrun⟩⟩

theorem Clean.trim (s : Str) (h : Clean none s) : Clean none (trim s) := by
  have e1 : List.takeWhile isWhiteSpace s ++ List.dropWhile isWhiteSpace s = s :=
    List.takeWhile_append_dropWhile _ _
  have h1 : Clean (lastOr none (List.takeWhile isWhiteSpace s))
      (List.dropWhile isWhiteSpace s) := by
    apply Clean.suffix
    rw [e1]; exact h
  have hp : prevIsDash (lastOr none (List.takeWhile isWhiteSpace s)) = false := by
    rcases List.eq_nil_or_concat (List.takeWhile isWhiteSpace s) with h0 | ⟨l, z, h0⟩
    · rw [h0]; rfl
    · rw [List.concat_eq_append] at h0
      have hz : isWhiteSpace z = true :=
        @List.mem_takeWhile_imp _ isWhiteSpace s z (by rw [h0]; simp)
      rw [h0, lastOr_append]
      exact not_isDash_of_isWhiteSpace hz
  have h2 := Clean.restart _ _ h1 hp
  obtain ⟨t, ht⟩ : PromptInspector.trim s <+: List.dropWhile isWhiteSpace s :=
    List.rdropWhile_prefix _ _
  have hall : ∀ c ∈ t, isWhiteSpace c = true := by
    have e2 : List.dropWhile isWhiteSpace s =
        List.rdropWhile isWhiteSpace (List.dropWhile isWhiteSpace s) ++
          (List.takeWhile isWhiteSpace (List.dropWhile isWhiteSpace s).reverse).reverse := by
      rw [List.rdropWhile, ← List.reverse_append, List.takeWhile_append_dropWhile,
        List.reverse_reverse]
    have e3 : t = (List.takeWhile isWhiteSpace (List.dropWhile isWhiteSpace s).reverse).reverse := by
      have := ht.trans e2
      exact List.append_cancel_left this
    intro c hc
    rw [e3, List.mem_reverse] at hc
    exact List.mem_takeWhile_imp hc
  rw [← ht] at h2
  exact Clean.dropEnd _ _ _ hall h2

theorem Clean.match_isSome (p : Option Char) (c : Char) (r : Str) (h : Clean p (c :: r))
    (hc : isDash c = true) (hp : prevIsDash p = false) :
    (matchNodes sepRe p (c :: r)).isSome = true := by
  obtain ⟨hstart, hrun⟩ : atStart true p = true ∧ 5 ≤ ((c :: r).takeWhile isDash).length := by
    rcases h.1 with hw | ⟨_, hpd | h3⟩
    · rw [not_isWhiteSpace_of_isDash hc] at hw; cases hw
    · rw [hp] at hpd; cases hpd
    · exact h3
  have hds : ∀ x ∈ (c :: r).takeWhile isDash, isDash x = true :=
    fun x hx => List.mem_takeWhile_imp hx
  have hw0 : ∀ x ∈ ((c :: r).dropWhile isDash).takeWhile isWhiteSpace, isWhiteSpace x = true :=
    fun x hx => List.mem_takeWhile_imp hx
  have e1 : (c :: r).takeWhile isDash ++ (c :: r).dropWhile isDash = c :: r :=
    List.takeWhile_append_dropWhile _ _
  have e2 : ((c :: r).dropWhile isDash).takeWhile isWhiteSpace ++
      ((c :: r).dropWhile isDash).dropWhile isWhiteSpace = (c :: r).dropWhile isDash :=
    List.takeWhile_append_dropWhile _ _
  generalize hdsdef : (c :: r).takeWhile isDash = ds at *
  generalize hadef : (c :: r).dropWhile isDash = a at *
  generalize hw0def : a.takeWhile isWhiteSpace = w0 at *
  cases ha' : a.dropWhile isWhiteSpace with
  | nil =>
    rw [ha', List.append_nil] at e2
    have := sepRe_complete _ ds w0 [] hstart hrun hds hw0 rfl
    rw [List.append_nil, e2, e1] at this
    exact this
  | cons y a'' =>
    rw [ha'] at e2
    have hy : isWhiteSpace y = false := by
      have := List.head?_dropWhile_not isWhiteSpace a
      rw [ha'] at this
      simpa using this
    have hcl : Clean (lastOr p (ds ++ w0)) (y :: a'') := by
      apply Clean.suffix
      rw [List.append_assoc, e2, e1]
      exact h
    have hyd : isDash y = true ∧ (prevIsDash (lastOr p (ds ++ w0)) = true ∨
        atStart true (lastOr p (ds ++ w0)) = true) := by
      rcases hcl.1 with hw | ⟨hd, hpd | h3⟩
      · rw [hy] at hw; cases hw
      · exact ⟨hd, Or.inl hpd⟩
      · exact ⟨hd, Or.inr h3.1⟩
    rcases List.eq_nil_or_concat w0 with h0 | ⟨w, z, h0⟩
    · exfalso
      rw [h0, List.nil_append] at e2
      have := List.head?_dropWhile_not isDash (c :: r)
      rw [hadef, ← e2] at this
      simp only [List.head?_cons] at this
      rw [hyd.1] at this
      cases this
    · rw [List.concat_eq_append] at h0
      have hz : isWhiteSpace z = true := hw0 z (by rw [h0]; simp)
      have hlast : lastOr p (ds ++ w0) = some z := by
        rw [h0, ← List.append_assoc, lastOr_append]; rfl
      have hzlt : isLineTerminator z = true := by
        rcases hyd.2 with hpd | hst
        · rw [hlast] at hpd
          have hpd' : isDash z = true := hpd
          rw [not_isDash_of_isWhiteSpace hz] at hpd'
          cases hpd'
        · rw [hlast] at hst
          simpa [atStart] using hst
      have := sepRe_complete _ ds w (z :: y :: a'') hstart hrun hds
        (fun x hx => hw0 x (by rw [h0]; exact List.mem_append_left _ hx))
        (by simpa [atEnd] using hzlt)
      have e3 : ds ++ w ++ z :: y :: a'' = c :: r := by
        rw [← e1, ← e2, h0]; simp
      rw [e3] at this
      exact this

theorem splitFrom_clean (n : Nat) : ∀ (rest : Str) (p : Option Char) (cur : Str),
    rest.length ≤ n → Clean p rest → (∀ c ∈ cur, isWhiteSpace c = true) →
    (prevIsDash p = true → ∀ c r, rest = c :: r → isDash c = false) →
    ∀ b ∈ splitFrom sepRe p cur rest, ∀ c ∈ b, isWhiteSpace c = true := by
  induction n with
  | zero =>
    intro rest p cur hlen _ hcur _ b hb
    have : rest = [] := List.length_eq_zero.1 (Nat.le_zero.1 hlen)
    subst this
    rw [splitFrom_nil, List.mem_singleton] at hb
    subst hb
    intro c hc
    exact hcur c (List.mem_reverse.1 hc)
  | succ n ih =>
    intro rest p cur hlen hcl hcur hinv b hb
    cases rest with
    | nil =>
      rw [splitFrom_nil, List.mem_singleton] at hb
      subst hb
      intro c hc
      exact hcur c (List.mem_reverse.1 hc)
    | cons c r =>
      have hlen' : r.length ≤ n := by simpa using hlen
      cases hd : isDash c with
      | false =>
        rw [splitFrom_cons_none cur (sepRe_none_of_not_dash p c r hd)] at hb
        have hw : isWhiteSpace c = true := by
          rcases hcl.1 with hw | ⟨hd', _⟩
          · exact hw
          · rw [hd] at hd'; cases hd'
        refine ih r (some c) (c :: cur) hlen' hcl.2 ?_ ?_ b hb
        · intro x hx
          rcases List.mem_cons.1 hx with rfl | hx
          · exact hw
          · exact hcur x hx
        · intro hpd
          have hpd' : isDash c = true := hpd
          rw [hd] at hpd'; cases hpd'
      | true =>
        have hp : prevIsDash p = false := by
          cases hpd : prevIsDash p with
          | false => rfl
          | true =>
            have := hinv hpd c r rfl
            rw [hd] at this; cases this
        obtain ⟨chunks, hm⟩ := Option.isSome_iff_exists.1 (Clean.match_isSome p c r hcl hd hp)
        obtain ⟨ds, ws, rest', hflat, hs, _, hrun, _, _, hend⟩ := sepRe_sound hm
        have hpos : 0 < chunks.flatten.length := by
          rw [hflat, List.length_append]; omega
        rw [splitFrom_cons_some cur hm hpos, hflat, hs, List.take_left, List.drop_left] at hb
        rcases List.mem_cons.1 hb with rfl | hb
        · intro x hx
          exact hcur x (List.mem_reverse.1 hx)
        · have hl : rest'.length ≤ n := by
            have := congrArg List.length hs
            simp only [List.length_cons, List.length_append] at this
            omega
          refine ih rest' _ [] hl ?_ (by simp) ?_ b hb
          · apply Clean.suffix
            rw [← hs]; exact hcl
          · intro _ y r' hy
            rw [hy] at hend
            have hlt : isLineTerminator y = true := by simpa [atEnd] using hend
            exact not_isDash_of_isWhiteSpace (isWhiteSpace_of_isLineTerminator hlt)

theorem takeWhile_length_le_append (p : Char → Bool) (a b : Str) :
    (a.takeWhile p).length ≤ ((a ++ b).takeWhile p).length := by
  induction a with
  | nil => simp
  | cons x a ih =>
    simp only [List.cons_append, List.takeWhile_cons]
    split
    · simpa using ih
    · simp

theorem pre_all_dash (c : Char) (l' : Str) (hc : isDash c = true) : ∀ (pre : Str),
    (∀ x ∈ List.dropWhile isDash (pre ++ c :: l'), isWhiteSpace x = true) →
    ∀ x ∈ pre, isDash x = true := by
  intro pre
  induction pre with
  | nil => intro _ x hx; cases hx
  | cons y pre ih =>
    intro h x hx
    cases hy : isDash y with
    | true =>
      rw [List.cons_append, List.dropWhile_cons_of_pos hy] at h
      rcases List.mem_cons.1 hx with rfl | hx
      · exact hy
      · exact ih h x hx
    | false =>
      rw [List.cons_append, List.dropWhile_cons_of_neg (by simp [hy])] at h
      have := h c (by simp)
      rw [not_isWhiteSpace_of_isDash hc] at this
      cases this

theorem clean_of_lines (s : Str) : ∀ (pre : Str) (p0 : Option Char),
    atStart true p0 = true → (∀ c ∈ pre, isLineTerminator c = false) →
    (∀ l ∈ lines (pre ++ s), isBlankLine l = true ∨ isSeparatorLine l = true) →
    Clean (lastOr p0 pre) s := by
  induction s with
  | nil => intro _ _ _ _ _; trivial
  | cons c r ih =>
    intro pre p0 hstart hpre hl
    cases hlt : isLineTerminator c with
    | true =>
      have e : lines (pre ++ c :: r) = pre :: lines r := by
        rw [lines, List.splitOnP_first _ _ (fun x hx => by simp [hpre x hx]) c hlt]
        rfl
      refine ⟨Or.inl (isWhiteSpace_of_isLineTerminator hlt), ?_⟩
      have := ih [] (some c) (by simpa [atStart] using hlt) (by simp)
        (fun l hl' => hl l (by rw [e]; exact List.mem_cons_of_mem _ hl'))
      simpa [lastOr_nil] using this
    | false =>
      have hrec := ih (pre ++ [c]) p0 hstart
        (by
          intro x hx
          rcases List.mem_append.1 hx with hx | hx
          · exact hpre x hx
          · simp only [List.mem_singleton] at hx
            subst hx; exact hlt)
        (by simpa using hl)
      rw [lastOr_append] at hrec
      refine ⟨?_, hrec⟩
      -- the line that holds `c`
      let l' := r.takeWhile (fun x => !isLineTerminator x)
      let tail := r.dropWhile (fun x => !isLineTerminator x)
      have er : l' ++ tail = r := List.takeWhile_append_dropWhile _ _
      have hl' : ∀ x ∈ l', isLineTerminator x = false := by
        intro x hx
        simpa using List.mem_takeWhile_imp hx
      have htail : atEnd true tail = true := by
        cases ht : tail with
        | nil => rfl
        | cons t tl =>
          have := List.head?_dropWhile_not (fun x => !isLineTerminator x) r
          have e : List.dropWhile (fun x => !isLineTerminator x) r = t :: tl := ht
          rw [e] at this
          simpa [atEnd] using this
      have hline : pre ++ c :: l' ∈ lines (pre ++ c :: r) := by
        have e : pre ++ c :: r = (pre ++ c :: l') ++ tail := by
          rw [← er]; simp
        rw [e]
        apply first_line_mem _ _ _ htail
        intro x hx
        rcases List.mem_append.1 hx with hx | hx
        · exact hpre x hx
        · rcases List.mem_cons.1 hx with rfl | hx
          · exact hlt
          · exact hl' x hx
      cases hd : isDash c with
      | false =>
        left
        rcases hl _ hline with hb | hsep
        · simp only [isBlankLine, List.all_eq_true] at hb
          exact hb c (by simp)
        · simp only [isSeparatorLine, Bool.and_eq_true, List.all_eq_true] at hsep
          have hmem : c ∈ List.takeWhile isDash (pre ++ c :: l') ++
              List.dropWhile isDash (pre ++ c :: l') := by
            rw [List.takeWhile_append_dropWhile]; simp
          rcases List.mem_append.1 hmem with h1 | h1
          · have := List.mem_takeWhile_imp h1
            rw [hd] at this; cases this
          · exact hsep.2 c h1
      | true =>
        right
        refine ⟨rfl, ?_⟩
        have hsep : isSeparatorLine (pre ++ c :: l') = true := by
          rcases hl _ hline with hb | hsep
          · simp only [isBlankLine, List.all_eq_true] at hb
            have := hb c (by simp)
            rw [not_isWhiteSpace_of_isDash hd] at this
            cases this
          · exact hsep
        simp only [isSeparatorLine, Bool.and_eq_true, List.all_eq_true,
          decide_eq_true_eq] at hsep
        have hpd := pre_all_dash c l' hd pre hsep.2
        rcases List.eq_nil_or_concat pre with h0 | ⟨q, z, h0⟩
        · right
          subst h0
          refine ⟨by simpa [lastOr_nil] using hstart, ?_⟩
          have h5 := hsep.1
          rw [List.nil_append] at h5
          have := takeWhile_length_le_append isDash (c :: l') tail
          rw [List.cons_append, er] at this
          omega
        · left
          rw [List.concat_eq_append] at h0
          rw [h0, lastOr_append]
          exact hpd z (by rw [h0]; simp)

theorem decodeLoop_all_blank (bs : List Str) (acc : List Message)
    (h : ∀ b ∈ bs, trim b = []) : decodeLoop bs acc = .ok acc := by
  induction bs with
  | nil => rfl
  | cons b bs ih =>
    rw [decodeLoop_cons_blank b bs acc (h b (by simp))]
    exact ih (fun x hx => h x (List.mem_cons_of_mem _ hx))

theorem split_blank_of_lines (s : Str)
    (h : ∀ l ∈ lines s, isBlankLine l = true ∨ isSeparatorLine l = true) :
    ∀ b ∈ split (trim s) sepRe, trim b = [] := by
  have hc : Clean none (trim s) :=
    Clean.trim s (by simpa [lastOr_nil] using clean_of_lines s [] none rfl (by simp) (by simpa using h))
  intro b hb
  rw [trim_eq_nil_iff]
  by_cases ht : trim s = []
  · rw [ht, split_nil_sepRe, List.mem_singleton] at hb
    subst hb
    simp
  · rw [split_eq_splitFrom ht] at hb
    exact splitFrom_clean _ _ none [] (Nat.le_refl _) hc (by simp) (by simp [prevIsDash]) b hb

/-- C8. Encoding the empty chat gives the empty string and decoding the empty
string gives the empty chat; more generally, when every line of the input is
white space only or a separator line (five or more `-`, optionally followed by
white space), every block of the split is white space only, is skipped, and
decoding returns the empty chat. -/
theorem fromReadableFormat_blank (s : Str)
    (h : ∀ l ∈ lines s, isBlankLine l = true ∨ isSeparatorLine l = true) :
    toReadableFormat (.array []) = [] ∧ fromReadableFormat [] = .ok [] ∧
      (∀ b ∈ split (trim s) sepRe, trim b = []) ∧ fromReadableFormat s = .ok [] :=
  ⟨rfl, rfl, split_blank_of_lines s h, decodeLoop_all_blank _ _ (split_blank_of_lines s h)⟩

theorem fromReadableFormat_blank_witness :
    (∀ l ∈ lines "  \n-----\n\n------  \n \n".toList,
      isBlankLine l = true ∨ isSeparatorLine l = true) ∧
    fromReadableFormat "  \n-----\n\n------  \n \n".toList = .ok [] :=
  ⟨by decide, (fromReadableFormat_blank "  \n-----\n\n------  \n \n".toList (by decide)).2.2.2⟩

/-! ### An edit that decodes and is lost -/

theorem showPromptInspector_save (text input : Str) :
    showPromptInspector (fun _ => ⟨true, text⟩) input = text := by
  simp [showPromptInspector]

theorem wellShaped_u_x :
    WellShaped ⟨"u".toList, "x".toList⟩ ∧ regExpTest sepRe "x".toList = false :=
  ⟨⟨by decide, by decide, by decide, rfl, rfl⟩, rfl⟩

theorem decode_encoded_replicate (n : Nat) :
    fromReadableFormat (toReadableFormat (.array (List.replicate n ⟨"u".toList, "x".toList⟩))) =
      .ok (List.replicate n ⟨"u".toList, "x".toList⟩) := by
  apply roundTrip_of_no_match
  intro x hx
  rw [List.eq_of_mem_replicate hx]
  exact wellShaped_u_x

theorem encoded_replicate_ne (n : Nat) :
    toReadableFormat (.array (List.replicate (n + 1) ⟨"u".toList, "x".toList⟩)) ≠
      toReadableFormat (.array [⟨"user".toList, "hi".toList⟩]) := by
  intro h
  obtain ⟨T, hT, _⟩ := toReadableFormat_cons_shape ⟨"u".toList, "x".toList⟩
    (List.replicate n ⟨"u".toList, "x".toList⟩)
    (fun y hy => by rw [List.eq_of_mem_replicate hy]; decide)
    (fun y hy => by rw [List.eq_of_mem_replicate hy]; decide)
  rw [List.replicate_succ, hT, toReadableFormat_single, renderItem_eq] at h
  simp [blockBody] at h

theorem chatHandler_edit_too_long_witness :
    fromReadableFormat (toReadableFormat
        (.array (List.replicate (129999 + 1) ⟨"u".toList, "x".toList⟩))) =
      .ok (List.replicate (129999 + 1) ⟨"u".toList, "x".toList⟩) ∧
    List.replicate (129999 + 1) (⟨"u".toList, "x".toList⟩ : Message) ≠
      [⟨"user".toList, "hi".toList⟩] ∧
    onChatCompletionPromptReady ⟨125724, "Maximum call stack size exceeded"⟩ ⟨true, "openai"⟩
        (fun _ => ⟨true, toReadableFormat
          (.array (List.replicate (129999 + 1) ⟨"u".toList, "x".toList⟩))⟩)
        ⟨0, .array [⟨"user".toList, "hi".toList⟩], false⟩ =
      .ok (⟨0, .array [⟨"user".toList, "hi".toList⟩], false⟩,
        [.popupShown (toReadableFormat (.array [⟨"user".toList, "hi".toList⟩])),
         .consoleError "Prompt Inspector: Invalid JSON or readable format",
         .toastrError ("Invalid readable format: " ++ "Maximum call stack size exceeded")]) :=
  ⟨decode_encoded_replicate _,
   (fun h => absurd (congrArg List.length h) (by rw [List.length_replicate]; decide)),
   chatHandler_edit_too_long ⟨125724, "Maximum call stack size exceeded"⟩ ⟨true, "openai"⟩
    (fun _ => ⟨true, toReadableFormat
      (.array (List.replicate (129999 + 1) ⟨"u".toList, "x".toList⟩))⟩)
    0 [⟨"user".toList, "hi".toList⟩] false
    (List.replicate (129999 + 1) ⟨"u".toList, "x".toList⟩) rfl rfl rfl
    (by rw [showPromptInspector_save]; exact encoded_replicate_ne _)
    (by rw [showPromptInspector_save]; exact decode_encoded_replicate _)
    (by rw [List.length_replicate]; decide)⟩

end PromptInspector
